import Mathlib

/-!
Verification of the kashy expense bot (src/bot.js).

The bot is a single JavaScript file.  Its core is
  - a ledger store: the text file gastos.txt, one expense per line, in the
    format timestamp;value;description;category (readExpensesFromFile,
    writeExpensesToFile, fs.appendFileSync, fs.unlinkSync);
  - an expense parser: the regular expression
    gastei\s+(\d+(?:,\d\x7b1,2\x7d)?)\s+(?:na|no|com)\s+(.+) anchored at both ends,
    case-insensitive (expenseRegex), plus suggestCategory;
  - a per-conversation state machine: the messages.upsert handler driven by the
    userConfirmationState and lastAddedExpenseData tables.

Modelling conventions of this shallow embedding:
  - JavaScript numbers are modelled by the type JsNum: NaN, the two infinities,
    and finite values carried as exact rationals.  Every finite numeric value
    in the bot comes from parseFloat of a decimal literal and flows only
    through additions, comparisons and fixed-point printing, where the exact
    decimal value is the intended reading; IEEE-754 rounding of literals and
    sums is below the granularity of this model and is not modelled.
  - Date values are modelled by their string: a stored timestamp is the raw
    text of the field, and the call new Date(s).toISOString() is modelled by
    jsDateToISO, an implementation of the ECMA-262 Date Time String Format
    (parse, MakeDay with day carry, range check) followed by the toISOString
    rendering; none models the RangeError an invalid date throws.  For a
    string outside that format, engine behaviour is implementation-defined
    fallback parsing; such strings are modelled as invalid.  The host
    timezone (used for date-times without an offset) is modelled as UTC.
    The Date the handler creates itself (new Date() at append time) is
    modelled by its ISO rendering, the now field of the inbound event.
  - The file system is modelled by an Option String: none when gastos.txt is
    absent, some content otherwise.  Fallibility of the individual fs and
    network calls that the handler guards with try/catch is modelled by
    explicit Boolean outcome fields on the inbound event.
  - One conversation is modelled; the tables are keyed by chat id and different
    keys never interact, so a single key captures the per-conversation flow.
  - Strings are modelled at their character lists; the regex classes are
    restricted to the ASCII members (the non-ASCII blanks and the two
    non-ASCII line terminators of JavaScript do not occur in this system).
-/

namespace Kashy

/-- Whitespace test modelling the JavaScript character class of spaces used by
String.prototype.trim and the regex class of blanks (restricted to the ASCII
whitespace characters). -/
def isWS (c : Char) : Bool :=
  c = ' ' || c = '\t' || c = '\n' || c = '\r' || c = '\x0b' || c = '\x0c'

/-- Lowercasing of a string, modelling JavaScript toLowerCase (ASCII letters;
the accented characters in this bot's keyword table are already lowercase). -/
def lowerStr (s : String) : String := ⟨s.data.map Char.toLower⟩

/-- Both-ends whitespace trim on character lists, modelling String.trim. -/
def trimChars (l : List Char) : List Char :=
  ((l.dropWhile isWS).reverse.dropWhile isWS).reverse

/-- Both-ends whitespace trim, modelling JavaScript String.trim. -/
def trimStr (s : String) : String := ⟨trimChars s.data⟩

/-- Splitting on a single separator character, modelling JavaScript
String.split(sep) for a one-character separator: splitting the empty string
gives one empty field, adjacent separators give empty fields. -/
def splitCh (sep : Char) : List Char → List (List Char)
  | [] => [[]]
  | c :: r =>
    if c = sep then [] :: splitCh sep r
    else
      match splitCh sep r with
      | [] => [[c]]
      | h :: t => (c :: h) :: t

/-- Value of a list of decimal digit characters. -/
def digitsToNat (ds : List Char) : Nat :=
  ds.foldl (fun n c => 10 * n + (c.toNat - '0'.toNat)) 0

/-- A JavaScript number as the bot observes it: NaN, one of the two
infinities, or a finite value (carried exactly as a rational, see the
numeric modelling convention). -/
inductive JsNum where
  | num (q : ℚ)
  | posInf
  | negInf
  | nan
deriving DecidableEq, Repr

/-- Test for NaN, modelling the isNaN check of the code. -/
def JsNum.isNaN : JsNum → Bool
  | .nan => true
  | _ => false

/-- Negation of a JavaScript number (the unary minus applied by parseFloat to
a signed literal). -/
def JsNum.jsNeg : JsNum → JsNum
  | .num q => .num (-q)
  | .posInf => .negInf
  | .negInf => .posInf
  | .nan => .nan

/-- Strict equality === on numbers: false whenever NaN is involved, value
equality otherwise. -/
def jsStrictEq (a b : JsNum) : Bool :=
  match a, b with
  | .nan, _ => false
  | _, .nan => false
  | x, y => x == y

/-- Addition of JavaScript numbers: NaN is absorbing, opposite infinities
give NaN, an infinity dominates finite values. -/
def jsAdd : JsNum → JsNum → JsNum
  | .nan, _ => .nan
  | _, .nan => .nan
  | .posInf, .negInf => .nan
  | .negInf, .posInf => .nan
  | .posInf, _ => .posInf
  | _, .posInf => .posInf
  | .negInf, _ => .negInf
  | _, .negInf => .negInf
  | .num a, .num b => .num (a + b)

/-- Subtraction of JavaScript numbers (used by the sort comparator
totalB - totalA of the category ranking). -/
def jsSub : JsNum → JsNum → JsNum
  | .nan, _ => .nan
  | _, .nan => .nan
  | .posInf, .posInf => .nan
  | .negInf, .negInf => .nan
  | .posInf, _ => .posInf
  | .negInf, _ => .negInf
  | _, .posInf => .negInf
  | _, .negInf => .posInf
  | .num a, .num b => .num (a - b)

/-- Positivity of a comparator result, as Array.prototype.sort reads it: a
NaN comparator value is treated as zero (SortCompare), so it is not
positive. -/
def jsPos : JsNum → Prop
  | .num q => 0 < q
  | .posInf => True
  | .negInf => False
  | .nan => False

instance : DecidablePred jsPos := fun x =>
  match x with
  | .num q => inferInstanceAs (Decidable (0 < q))
  | .posInf => inferInstanceAs (Decidable True)
  | .negInf => inferInstanceAs (Decidable False)
  | .nan => inferInstanceAs (Decidable False)

/-- Falsiness of a number (the if (!categoryTotals[category]) test): zero and
NaN are falsy, infinities and nonzero finite values are truthy. -/
def isFalsy : JsNum → Bool
  | .num q => q == 0
  | .posInf => false
  | .negInf => false
  | .nan => true

/-- Finite value of a JavaScript number, zero on the non-finite ones (only
applied under a finiteness hypothesis in the statements below). -/
def numVal : JsNum → ℚ
  | .num q => q
  | _ => 0

/-- Exponent part of a JavaScript float literal, used by jsParseFloat: an
optional sign and a digit run; an exponent marker not followed by digits
contributes a factor of one, exactly as parseFloat ignores it. -/
def parseExpPart (l : List Char) : Int :=
  match l with
  | '-' :: r => if (r.takeWhile Char.isDigit).isEmpty then 0
                else -(digitsToNat (r.takeWhile Char.isDigit) : Int)
  | '+' :: r => if (r.takeWhile Char.isDigit).isEmpty then 0
                else (digitsToNat (r.takeWhile Char.isDigit) : Int)
  | _ => if (l.takeWhile Char.isDigit).isEmpty then 0
         else (digitsToNat (l.takeWhile Char.isDigit) : Int)

/-- Mantissa and exponent of the longest numeric prefix of the character list,
after sign stripping: digits, an optional dot with more digits, an optional
exponent.  Returns none when no digit is found, modelling a NaN result. -/
def jsParseFloatMantissa (l : List Char) : Option ℚ :=
  let ip := l.takeWhile Char.isDigit
  let l1 := l.dropWhile Char.isDigit
  let fp := match l1 with
    | '.' :: r => r.takeWhile Char.isDigit
    | _ => []
  let l2 := match l1 with
    | '.' :: r => r.dropWhile Char.isDigit
    | _ => l1
  if ip.isEmpty && fp.isEmpty then none
  else
    let mant : ℚ := (digitsToNat ip : ℚ) + (digitsToNat fp : ℚ) / (10 : ℚ) ^ fp.length
    let e : Int := match l2 with
      | 'e' :: r => parseExpPart r
      | 'E' :: r => parseExpPart r
      | _ => 0
    some (mant * (10 : ℚ) ^ e)

/-- Unsigned part of parseFloat: the case-sensitive literal Infinity (as a
prefix), or a numeric prefix; none models NaN. -/
def jsParseFloatMag (l : List Char) : Option JsNum :=
  if ['I', 'n', 'f', 'i', 'n', 'i', 't', 'y'].isPrefixOf l then some JsNum.posInf
  else (jsParseFloatMantissa l).map JsNum.num

/-- Model of JavaScript parseFloat: leading whitespace is skipped, an optional
sign is read, then either the literal Infinity or the longest prefix of the
form digits [. digits] [exponent] is converted; NaN when no number is
found. -/
def jsParseFloat (s : String) : JsNum :=
  let l := s.data.dropWhile isWS
  match l with
  | '-' :: r => ((jsParseFloatMag r).map JsNum.jsNeg).getD JsNum.nan
  | '+' :: r => (jsParseFloatMag r).getD JsNum.nan
  | _ => (jsParseFloatMag l).getD JsNum.nan

/-- Day number (days since 1970-01-01) of year, month (1..12) and day of
month in the proleptic Gregorian calendar, with the ECMA MakeDay semantics:
a day beyond the length of the month carries over into the following
months. -/
def daysFromCivil (y m d : Int) : Int :=
  let y2 : Int := if m ≤ 2 then y - 1 else y
  let era : Int := (if 0 ≤ y2 then y2 else y2 - 399).fdiv 400
  let yoe : Int := y2 - era * 400
  let mp : Int := if 2 < m then m - 3 else m + 9
  let doy : Int := (153 * mp + 2).fdiv 5 + d - 1
  let doe : Int := yoe * 365 + yoe.fdiv 4 - yoe.fdiv 100 + doy
  era * 146097 + doe - 719468

/-- Inverse of daysFromCivil: year, month and day of month of a day
number. -/
def civilFromDays (z0 : Int) : Int × Nat × Nat :=
  let z : Int := z0 + 719468
  let era : Int := (if 0 ≤ z then z else z - 146096).fdiv 146097
  let doe : Nat := (z - era * 146097).toNat
  let yoe : Nat := (doe - doe / 1460 + doe / 36524 - doe / 146096) / 365
  let y : Int := (yoe : Int) + era * 400
  let doy : Nat := doe - (365 * yoe + yoe / 4 - yoe / 100)
  let mp : Nat := (5 * doy + 2) / 153
  let d : Nat := doy - (153 * mp + 2) / 5 + 1
  let m : Nat := if mp < 10 then mp + 3 else mp - 9
  (if m ≤ 2 then y + 1 else y, m, d)

/-- Left zero-padding of a decimal rendering to a given width. -/
def padN (w n : Nat) : List Char :=
  let ds := Nat.toDigits 10 n
  List.replicate (w - ds.length) '0' ++ ds

/-- Rendering of Date.prototype.toISOString from a millisecond time value:
YYYY-MM-DDTHH:mm:ss.sssZ, with the expanded six-digit signed year for years
outside 0..9999. -/
def renderISO (ms : Int) : String :=
  let day : Int := ms.fdiv 86400000
  let tod : Nat := (ms - day * 86400000).toNat
  let c := civilFromDays day
  let yearPart : List Char :=
    if 0 ≤ c.1 ∧ c.1 ≤ 9999 then padN 4 c.1.toNat
    else (if c.1 < 0 then '-' else '+') :: padN 6 c.1.natAbs
  ⟨yearPart ++ '-' :: padN 2 c.2.1 ++ '-' :: padN 2 c.2.2 ++ 'T' :: padN 2 (tod / 3600000) ++
    ':' :: padN 2 (tod / 60000 % 60) ++ ':' :: padN 2 (tod / 1000 % 60) ++
    '.' :: padN 3 (tod % 1000) ++ ['Z']⟩

/-- Reading of exactly n decimal digits from the front of the list, with the
rest. -/
def takeDigitsN (n : Nat) (l : List Char) : Option (Nat × List Char) :=
  let ds := l.take n
  if ds.length = n ∧ ds.all Char.isDigit then some (digitsToNat ds, l.drop n) else none

/-- Year field of the Date Time String Format: four digits, or an expanded
six-digit year with a mandatory sign (the year -000000 is excluded). -/
def parseISOYear : List Char → Option (Int × List Char)
  | '+' :: r => (takeDigitsN 6 r).map (fun p => ((p.1 : Int), p.2))
  | '-' :: r =>
    match takeDigitsN 6 r with
    | some (n, r2) => if n = 0 then none else some (-(n : Int), r2)
    | none => none
  | l => (takeDigitsN 4 l).map (fun p => ((p.1 : Int), p.2))

/-- Signed timezone offset field after its sign: HH:mm, in minutes. -/
def parseOffsetHM (r : List Char) : Option Int := do
  let (hh, r1) ← takeDigitsN 2 r
  match r1 with
  | ':' :: r2 => do
    let (mm, r3) ← takeDigitsN 2 r2
    if r3 = [] ∧ hh ≤ 23 ∧ mm ≤ 59 then some ((hh * 60 + mm : Nat) : Int) else none
  | _ => none

/-- Timezone offset of the Date Time String Format: nothing (the host zone,
UTC by the modelling convention), Z, or a signed HH:mm offset in minutes. -/
def parseOffsetTail : List Char → Option Int
  | [] => some 0
  | ['Z'] => some 0
  | '+' :: r => parseOffsetHM r
  | '-' :: r => (parseOffsetHM r).map (fun v => -v)
  | _ => none

/-- Time field of the Date Time String Format: HH:mm, optionally :ss,
optionally .sss, then the offset; the result is the millisecond of day and
the offset in minutes.  The hour 24 is admitted with a zero time, per the
grammar. -/
def parseTimePart (l : List Char) : Option (Nat × Int) := do
  let (hh, r1) ← takeDigitsN 2 l
  match r1 with
  | ':' :: r2 => do
    let (mi, r3) ← takeDigitsN 2 r2
    if 59 < mi then none
    else do
      let smr ←
        (match r3 with
        | ':' :: r4 => do
          let (ss, r5) ← takeDigitsN 2 r4
          if 59 < ss then none
          else
            match r5 with
            | '.' :: r6 => do
              let (ms3, r7) ← takeDigitsN 3 r6
              some (ss, ms3, r7)
            | _ => some (ss, 0, r5)
        | _ => some (0, 0, r3) : Option (Nat × Nat × List Char))
      let off ← parseOffsetTail smr.2.2
      if hh ≤ 23 ∨ (hh = 24 ∧ mi = 0 ∧ smr.1 = 0 ∧ smr.2.1 = 0) then
        some (hh * 3600000 + mi * 60000 + smr.1 * 1000 + smr.2.1, off)
      else none
  | _ => none

/-- Millisecond time value of a string in the Date Time String Format
YYYY[-MM[-DD]][THH:mm[:ss[.sss]][Z or signed HH:mm]]: the field ranges of the
grammar are enforced (month 01..12, day 01..31), the day is combined by
MakeDay (carrying over a day beyond the month length), and the offset is
subtracted; none when the string does not conform. -/
def jsDateMs (l : List Char) : Option Int := do
  let (y, r0) ← parseISOYear l
  let mdr ←
    (match r0 with
    | '-' :: r1 => do
      let (mo, r2) ← takeDigitsN 2 r1
      if mo < 1 ∨ 12 < mo then none
      else
        match r2 with
        | '-' :: r3 => do
          let (da, r4) ← takeDigitsN 2 r3
          if da < 1 ∨ 31 < da then none else some (mo, da, r4)
        | _ => some (mo, 1, r2)
    | _ => some (1, 1, r0) : Option (Nat × Nat × List Char))
  match mdr.2.2 with
  | [] => some (daysFromCivil y mdr.1 mdr.2.1 * 86400000)
  | 'T' :: r5 => do
    let (tod, off) ← parseTimePart r5
    some (daysFromCivil y mdr.1 mdr.2.1 * 86400000 + (tod : Int) - off * 60000)
  | _ => none

/-- Model of new Date(s).toISOString(): parse the string as a Date Time
String Format instant, reject it outside the ±8.64e15 ms range, and render
the canonical ISO string; none models the Invalid Date whose toISOString
throws a RangeError. -/
def jsDateToISO (s : String) : Option String :=
  match jsDateMs s.data with
  | none => none
  | some ms => if ms.natAbs ≤ 8640000000000000 then some (renderISO ms) else none

/-- An expense record, as produced by readExpensesFromFile in src/bot.js:
timestamp (the raw text of the stored field, see the Date modelling
convention), value, description and category. -/
structure Expense where
  timestamp : String
  value : JsNum
  description : String
  category : String
deriving DecidableEq, Repr

/-- Parse of one stored line, the body of the map in readExpensesFromFile:
split on the semicolon; a line with fewer than 3 fields is dropped, the value
field goes through parseFloat and a NaN value drops the line (an Infinity
value is kept), an empty description field defaults to "Sem descrição", a
missing or empty category field defaults to "Outros". -/
def parseExpenseLine (line : String) : Option Expense :=
  match (splitCh ';' line.data).map (fun cs => (⟨cs⟩ : String)) with
  | timestamp :: rawValue :: description :: rest =>
    let v := jsParseFloat rawValue
    if v.isNaN then none
    else
      some ⟨timestamp, v,
            if description = "" then "Sem descrição" else description,
            match rest with
            | c :: _ => if c = "" then "Outros" else c
            | [] => "Outros"⟩
  | _ => none

/-- Model of readExpensesFromFile: an absent or blank file is the empty ledger;
otherwise the trimmed content is split into lines and each line parsed by
parseExpenseLine, dropped lines leaving no trace. -/
def readExpensesFromFile (gastosFile : Option String) : List Expense :=
  match gastosFile with
  | none => []
  | some fileContent =>
    if trimChars fileContent.data = [] then []
    else
      (((splitCh '\n' (trimChars fileContent.data)).map
        (fun cs => (⟨cs⟩ : String))).filterMap parseExpenseLine)

/-- Exponential Number toString rendering for a nonnegative value of at least
1e21, as toFixed falls back to it: the significant digits of the exact
decimal value (every value this system stores has a terminating decimal
expansion; the empty string is the formal fallback for the others), a dot
after the first when there are more, then e+ and the exponent. -/
def jsExpString (x : ℚ) : String :=
  match (List.range (x.den + 1)).find? (fun d => (x * (10 : ℚ) ^ d).den = 1) with
  | none => ""
  | some d =>
    let m : Nat := (x * (10 : ℚ) ^ d).num.toNat
    let ds := Nat.toDigits 10 m
    let sig := (ds.reverse.dropWhile (fun c => c = '0')).reverse
    ⟨sig.take 1 ++ (if 1 < sig.length then '.' :: sig.drop 1 else []) ++
      'e' :: '+' :: Nat.toDigits 10 (ds.length - 1 - d)⟩

/-- Model of Number.prototype.toFixed(2), following the ECMA algorithm: NaN
prints NaN, a negative value contributes a minus sign and is negated, a
magnitude of at least 1e21 (the infinities included) falls back to the
Number toString rendering, and otherwise the magnitude is rounded to a count
of hundredths (nearest, ties to the larger count) and rendered as the integer
digits, a dot and exactly two fractional digits. -/
def toFixed2 : JsNum → String
  | .nan => "NaN"
  | .posInf => "Infinity"
  | .negInf => "-Infinity"
  | .num q =>
    let s : List Char := if q < 0 then ['-'] else []
    if (10 : ℚ) ^ 21 ≤ |q| then ⟨s⟩ ++ jsExpString |q|
    else
      let n : Nat := (⌊|q| * 100 + 1 / 2⌋).toNat
      ⟨s ++ Nat.toDigits 10 (n / 100) ++ '.' ::
        (if n % 100 < 10 then '0' :: Nat.toDigits 10 (n % 100) else Nat.toDigits 10 (n % 100))⟩

/-- Serialization of one record from its rendered timestamp, the template
shared by the append in the expense confirmation branch and by
writeExpensesToFile: timestamp;value.toFixed(2);description;category. -/
def serializeFields (iso : String) (value : JsNum) (description category : String) : String :=
  iso ++ ";" ++ toFixed2 value ++ ";" ++ description ++ ";" ++ category

/-- Serialization of a stored record by writeExpensesToFile: the timestamp
goes through toISOString (normalizing it), so a record whose stored timestamp
is not a parseable date throws, modelled by none. -/
def serializeExpense (exp : Expense) : Option String :=
  (jsDateToISO exp.timestamp).map
    (fun iso => serializeFields iso exp.value exp.description exp.category)

/-- Joining a list of strings with a separator, modelling JavaScript
Array.prototype.join: the empty list gives the empty string, otherwise the
elements with the separator between consecutive elements. -/
def joinSep (sep : String) : List String → String
  | [] => ""
  | [a] => a
  | a :: rest => a ++ sep ++ joinSep sep rest

/-- Serialization of every record left to right (the lines array the map
builds); none as soon as one record throws. -/
def serializeAll : List Expense → Option (List String)
  | [] => some []
  | exp :: rest =>
    match serializeExpense exp, serializeAll rest with
    | some line, some lines => some (line :: lines)
    | _, _ => none

/-- Model of writeExpensesToFile: the serialized records joined by newlines,
with a newline guaranteed at the end of the file; none (nothing written) when
the serialization of some record throws on an invalid timestamp, since the
lines array is built before the write. -/
def writeExpensesToFile (expenses : List Expense) : Option String :=
  (serializeAll expenses).map (fun lines => joinSep "\n" lines ++ "\n")

/-- The keyword to category table of src/bot.js, in its source (insertion)
order, which is the iteration order of the for-in loop in suggestCategory. -/
def categoryMap : List (String × String) :=
  [("mercado", "Supermercado"), ("compra", "Supermercado"),
   ("padaria", "Alimentação"), ("restaurante", "Alimentação"),
   ("almoco", "Alimentação"), ("jantar", "Alimentação"),
   ("pizza", "Alimentação"), ("lanche", "Alimentação"),
   ("transporte", "Transporte"), ("uber", "Transporte"),
   ("taxi", "Transporte"), ("gasolina", "Automóvel"),
   ("combustivel", "Automóvel"), ("cinema", "Entretenimento"),
   ("filme", "Entretenimento"), ("role", "Entretenimento"),
   ("roupa", "Compras"), ("sapato", "Compras"),
   ("eletronico", "Compras"), ("conta", "Contas Fixas"),
   ("aluguel", "Moradia"), ("internet", "Serviços")]

/-- Substring occurrence test, modelling JavaScript String.includes. -/
def containsSub (needle : List Char) : List Char → Bool
  | [] => needle.isEmpty
  | c :: t => needle.isPrefixOf (c :: t) || containsSub needle t

/-- Model of suggestCategory: lowercase the description, return the category of
the first keyword of categoryMap that occurs as a substring, "Outros" when none
does. -/
def suggestCategory (description : String) : String :=
  match categoryMap.find? (fun kv => containsSub kv.1.data (lowerStr description).data) with
  | some kv => kv.2
  | none => "Outros"

/-- Case-insensitive literal stripping: succeeds when the list starts with
characters whose lowercase forms spell the pattern, returning the rest.  Models
matching a fixed literal under the regex i flag. -/
def stripCI (pat : List Char) (l : List Char) : Option (List Char) :=
  match pat, l with
  | [], _ => some l
  | _ :: _, [] => none
  | p :: ps, c :: cs => if c.toLower = p then stripCI ps cs else none

/-- Amount part of expenseRegex, the group (\d+(?:,\d\x7b1,2\x7d)?): a digit run,
then optionally a comma followed by one or two digits.  Returns the matched
characters and the rest.  When the comma is present but followed by zero or
three or more digits the optional group cannot take part in any overall match
(the following \s+ fails on every backtracking alternative), which is what
returning the bare digit run models. -/
def matchAmount (l : List Char) : Option (List Char × List Char) :=
  let ds := l.takeWhile Char.isDigit
  let r := l.dropWhile Char.isDigit
  if ds.isEmpty then none
  else
    match r with
    | ',' :: r2 =>
      let fs := r2.takeWhile Char.isDigit
      if fs.length = 1 || fs.length = 2 then
        some (ds ++ ',' :: fs, r2.dropWhile Char.isDigit)
      else some (ds, r)
    | _ => some (ds, r)

/-- Connector part of expenseRegex, the group (?:na|no|com), case-insensitive.
The three alternatives are mutually exclusive on any input, so alternation
order is immaterial. -/
def matchConn (l : List Char) : Option (List Char) :=
  match stripCI ['n', 'a'] l with
  | some r => some r
  | none =>
    match stripCI ['n', 'o'] l with
    | some r => some r
    | none => stripCI ['c', 'o', 'm'] l

/-- Line terminator test for the regex dot: the dot of expenseRegex matches
any character except a LineTerminator, which in the ASCII restriction of this
model is the newline or the carriage return. -/
def isLineTerm (c : Char) : Bool := c = '\n' || c = '\r'

/-- Tail of expenseRegex after the connector, \s+(.+)$ with the dot not
matching line terminators and the anchor at the true end of input: at least
one blank, then a nonempty line-terminator-free capture reaching the end.
The greedy blank run yields its last character to the capture only when
nothing else is left, the single backtracking case of the regex. -/
def matchDescTail (l : List Char) : Option (List Char) :=
  let w := l.takeWhile isWS
  let t := l.dropWhile isWS
  if w.isEmpty then none
  else if t.isEmpty then
    match w.getLast? with
    | some c => if 2 ≤ w.length && !isLineTerm c then some [c] else none
    | none => none
  else if t.any isLineTerm then none
  else some t

/-- Model of messageText.match(expenseRegex) for the anchored case-insensitive
expenseRegex of src/bot.js,
gastei\s+(\d+(?:,\d\x7b1,2\x7d)?)\s+(?:na|no|com)\s+(.+), returning the two
capture groups (raw amount, raw description) on a match.  Every boundary except
the one in matchDescTail joins character classes that are disjoint, so the
greedy maximal-munch reading below is exactly the backtracking regex. -/
def expenseMatch (text : String) : Option (String × String) :=
  match stripCI ['g', 'a', 's', 't', 'e', 'i'] text.data with
  | none => none
  | some r0 =>
    if (r0.takeWhile isWS).isEmpty then none
    else
      match matchAmount (r0.dropWhile isWS) with
      | none => none
      | some (amt, r2) =>
        if (r2.takeWhile isWS).isEmpty then none
        else
          match matchConn (r2.dropWhile isWS) with
          | none => none
          | some r4 =>
            match matchDescTail r4 with
            | none => none
            | some d => some ((⟨amt⟩ : String), (⟨d⟩ : String))

/-- First-occurrence comma replacement, modelling the JavaScript call
match[1].replace(String.fromCharCode(44), ".") in the handler, which with a
string pattern replaces only the first occurrence. -/
def replaceFirstComma : List Char → List Char
  | [] => []
  | c :: r => if c = ',' then '.' :: r else c :: replaceFirstComma r

/-- Snapshot stored in lastAddedExpenseData[chatId] after a successful append,
the Pending Commit of the spec: the identifying fields of the record just
written together with the suggested category.  Its timestamp is the Date
taken at append time, modelled by its ISO rendering (toISOString on it is
the identity and never throws). -/
structure PendingExpense where
  timestamp : String
  value : JsNum
  description : String
  suggestedCategory : String
deriving DecidableEq, Repr

/-- The three type tags a userConfirmationState[chatId] entry can carry in
src/bot.js, as a sum type (the expense confirmation entry also carries the
parsed value, description and suggested category it stores). -/
inductive SessionType where
  | expense_confirm (value : JsNum) (description : String) (suggestedCategory : String)
  | category_confirm
  | clear_confirm
deriving DecidableEq, Repr

/-- Per-conversation state of the bot: the userConfirmationState entry (none is
the Idle state), the lastAddedExpenseData entry, and the content of gastos.txt
(none when the file is absent). -/
structure BotState where
  userConfirmationState : Option SessionType
  lastAddedExpenseData : Option PendingExpense
  gastosFile : Option String
deriving DecidableEq, Repr

/-- One inbound message event, with the data the handler draws from its
environment: the raw text, the timestamp new Date() taken when an append
happens, and the outcomes of the fallible calls the handler guards with
try/catch (appendFileSync, writeFileSync, unlinkSync, and the one
sendMessage whose failure has a dedicated catch block). -/
structure Inbound where
  text : String
  now : String
  appendOk : Bool
  rewriteOk : Bool
  clearOk : Bool
  sendOk : Bool
deriving DecidableEq, Repr

/-- The outbound replies of the handler, one constructor per sendMessage text
in src/bot.js.  Replies whose full wording depends on the wall clock or on the
random success-phrase draw (the report bodies and the category prompt) are
carried by constructors holding exactly the state-derived data. -/
inductive Reply where
  | saveError
  | categoryPrompt (suggestedCategory : String)
  | savedButPromptFailed (value : JsNum) (description : String)
  | cancelled
  | invalidExpenseReply
  | stateError
  | categoryUpdated (category : String)
  | categoryNotFound
  | categorySaveError
  | keptOther
  | invalidCategoryReply
  | cleared
  | alreadyEmptyFile
  | nothingToClear
  | clearError
  | clearCancelled
  | invalidClearReply
  | helpText
  | noExpenses
  | totalReport (total : JsNum)
  | todayReport
  | weekReport
  | fullReport (ranking : List (String × JsNum))
  | clearPrompt
  | expensePrompt (value : JsNum) (description : String)
  | invalidExpenseFormat
deriving DecidableEq, Repr

/-- Yes-class normalized input, the test lowerCaseText is sim or s. -/
def isYes (s : String) : Bool := s = "sim" || s = "s"

/-- No-class normalized input, the test lowerCaseText is one of não, nao, n. -/
def isNo (s : String) : Bool := s = "não" || s = "nao" || s = "n"

/-- Match test of the category confirmation loop body: the stored record's
normalized timestamp (it has one) equals the Pending Commit's, its value is
strictly equal (===), its description equal, and its category still the
default "Outros". -/
def matchesLastAdded (expenseData : PendingExpense) (exp : Expense) : Bool :=
  match jsDateToISO exp.timestamp with
  | none => false
  | some iso =>
    iso = expenseData.timestamp && jsStrictEq exp.value expenseData.value &&
      exp.description = expenseData.description && exp.category = "Outros"

/-- Outcome of the category confirmation search loop: a RangeError thrown by
toISOString on a stored timestamp (caught by the surrounding try), no
matching record, or the updated ledger. -/
inductive ScanResult where
  | threw
  | notFound
  | updated (expenses : List Expense)
deriving DecidableEq, Repr

/-- The search loop of the category confirmation yes branch: walk the ledger
from its last (most recent) record backwards; at each record toISOString of
its stored timestamp is evaluated first and an invalid date throws out of the
loop; otherwise the first record matching the Pending Commit has its category
set and the loop stops there.  Records before the match are not scanned. -/
def updateLastAdded (expenseData : PendingExpense) : List Expense → ScanResult
  | [] => .notFound
  | exp :: rest =>
    match updateLastAdded expenseData rest with
    | .threw => .threw
    | .updated rest2 => .updated (exp :: rest2)
    | .notFound =>
      match jsDateToISO exp.timestamp with
      | none => .threw
      | some _ =>
        if matchesLastAdded expenseData exp then
          .updated (Expense.mk exp.timestamp exp.value exp.description
                      expenseData.suggestedCategory :: rest)
        else .notFound

/-- Category under which the full report counts a record (the defensive
defaulting expense.category or "Outros" of the /relatorio handler). -/
def catOf (exp : Expense) : String :=
  if exp.category = "" then "Outros" else exp.category

/-- Per-category accumulation of the full report, one record at a time: a
falsy running total (absent, zero, or NaN) is first reset to zero by the
if (!categoryTotals[category]) line, then the value is added.  The object is
an association list in first-seen key order (JavaScript objects store string
keys in insertion order). -/
def addCategoryTotal : List (String × JsNum) → String → JsNum → List (String × JsNum)
  | [], c, v => [(c, jsAdd (JsNum.num 0) v)]
  | (k, t) :: rest, c, v =>
    if k = c then (k, jsAdd (if isFalsy t then JsNum.num 0 else t) v) :: rest
    else (k, t) :: addCategoryTotal rest c v

/-- The categoryTotals accumulation of the /relatorio handler, including its
defensive defaulting of an empty category to "Outros".  An assignment to the
key __proto__ on a plain object never creates an own property (it goes to the
prototype setter), so a record whose category is __proto__ contributes no
entry. -/
def categoryTotals (expenses : List Expense) : List (String × JsNum) :=
  expenses.foldl
    (fun acc exp =>
      if catOf exp = "__proto__" then acc
      else addCategoryTotal acc (catOf exp) exp.value)
    []

/-- Array-index test of the property enumeration order: the canonical decimal
rendering (no leading zero except "0" itself) of an integer below 2^32 - 1. -/
def isArrayIndexKey (s : String) : Bool :=
  match s.data with
  | [] => false
  | c :: cs =>
    (c :: cs).all Char.isDigit && (decide (c ≠ '0') || decide (cs = [])) &&
      digitsToNat (c :: cs) ≤ 4294967294

/-- Ascending numeric order on array-index entry keys. -/
def keyAsc (a b : String × JsNum) : Prop :=
  digitsToNat a.1.data ≤ digitsToNat b.1.data

instance : DecidableRel keyAsc := fun a b =>
  inferInstanceAs (Decidable (digitsToNat a.1.data ≤ digitsToNat b.1.data))

instance : IsTotal (String × JsNum) keyAsc :=
  ⟨fun a b => Nat.le_total (digitsToNat a.1.data) (digitsToNat b.1.data)⟩

instance : IsTrans (String × JsNum) keyAsc := ⟨fun _ _ _ => Nat.le_trans⟩

/-- Model of Object.entries on the accumulated object: the own string keys
that are array indices come first in ascending numeric order, then the
remaining keys in insertion order. -/
def objectEntries (acc : List (String × JsNum)) : List (String × JsNum) :=
  List.insertionSort keyAsc (acc.filter (fun p => isArrayIndexKey p.1)) ++
    acc.filter (fun p => !isArrayIndexKey p.1)

/-- Comparator order of the category ranking sort, from the comparator
totalB - totalA and the SortCompare reading of its result (a NaN comparator
value counts as zero): the entry a may stay before b exactly when the
comparator is not positive. -/
def rankGE (a b : String × JsNum) : Prop := ¬ jsPos (jsSub b.2 a.2)

instance : DecidableRel rankGE := fun a b =>
  inferInstanceAs (Decidable (¬ jsPos (jsSub b.2 a.2)))

/-- Total preorder on numbers extending the descending-total comparator away
from NaN (NaN is placed at the bottom); on NaN-free entries it coincides with
rankGE and supplies the totality and transitivity the sort lemmas need. -/
def jsLe : JsNum → JsNum → Prop
  | .nan, _ => True
  | _, .nan => False
  | .negInf, _ => True
  | _, .negInf => False
  | .num a, .num b => a ≤ b
  | _, .posInf => True
  | .posInf, .num _ => False

instance : ∀ a b : JsNum, Decidable (jsLe a b) := fun a b => by
  cases a <;> cases b <;> simp only [jsLe] <;> infer_instance

/-- Auxiliary sort relation for the ranking: rankGE through jsLe. -/
def rankGE' (a b : String × JsNum) : Prop := jsLe b.2 a.2

instance : DecidableRel rankGE' := fun a b => inferInstanceAs (Decidable (jsLe b.2 a.2))

instance : IsTotal (String × JsNum) rankGE' :=
  ⟨fun a b => by
    show jsLe b.2 a.2 ∨ jsLe a.2 b.2
    cases a.2 <;> cases b.2 <;> simp only [jsLe] <;>
      first
      | exact Or.inl trivial
      | exact Or.inr trivial
      | exact le_total _ _⟩

instance : IsTrans (String × JsNum) rankGE' :=
  ⟨fun a b c hab hbc => by
    show jsLe c.2 a.2
    have h1 : jsLe b.2 a.2 := hab
    have h2 : jsLe c.2 b.2 := hbc
    cases ha : a.2 <;> cases hb : b.2 <;> cases hc : c.2
    all_goals rw [ha, hb] at h1
    all_goals rw [hb, hc] at h2
    all_goals simp only [jsLe] at h1 h2 ⊢
    all_goals
      first
      | trivial
      | exact h1.elim
      | exact h2.elim
      | exact le_trans h2 h1⟩

/-- The sortedCategories ranking of the /relatorio handler: the entries of
categoryTotals, enumerated by Object.entries, sorted by total descending.
Array.prototype.sort is a stable sort, modelled by the stable insertionSort
with the comparator order. -/
def sortedCategories (expenses : List Expense) : List (String × JsNum) :=
  List.insertionSort rankGE (objectEntries (categoryTotals expenses))

/-- One run of the messages.upsert handler of src/bot.js on one inbound text
message for this conversation, translated branch by branch: first a pending
confirmation consumes the message as a yes/no reply, otherwise the slash
commands are tried, otherwise expenseRegex.  Returns the new state and the
replies sent. -/
def step (st : BotState) (m : Inbound) : BotState × List Reply :=
  let messageText := trimStr m.text
  let lowerCaseText := lowerStr messageText
  match st.userConfirmationState with
  | some (SessionType.expense_confirm value description suggestedCategory) =>
    if isYes lowerCaseText then
      if m.appendOk then
        let record := serializeFields m.now value description "Outros" ++ "\n"
        let file' := some (st.gastosFile.getD "" ++ record)
        if m.sendOk then
          (⟨some SessionType.category_confirm,
            some ⟨m.now, value, description, suggestedCategory⟩, file'⟩,
           [Reply.categoryPrompt suggestedCategory])
        else
          (⟨none, none, file'⟩, [Reply.savedButPromptFailed value description])
      else
        (⟨none, none, st.gastosFile⟩, [Reply.saveError])
    else if isNo lowerCaseText then
      (⟨none, none, st.gastosFile⟩, [Reply.cancelled])
    else
      (st, [Reply.invalidExpenseReply])
  | some SessionType.category_confirm =>
    match st.lastAddedExpenseData with
    | none => (⟨none, none, st.gastosFile⟩, [Reply.stateError])
    | some expenseData =>
      if isYes lowerCaseText then
        match updateLastAdded expenseData (readExpensesFromFile st.gastosFile) with
        | .threw => (⟨none, none, st.gastosFile⟩, [Reply.categorySaveError])
        | .notFound => (⟨none, none, st.gastosFile⟩, [Reply.categoryNotFound])
        | .updated expenses2 =>
          match writeExpensesToFile expenses2 with
          | none => (⟨none, none, st.gastosFile⟩, [Reply.categorySaveError])
          | some content =>
            if m.rewriteOk then
              (⟨none, none, some content⟩,
               [Reply.categoryUpdated expenseData.suggestedCategory])
            else
              (⟨none, none, st.gastosFile⟩, [Reply.categorySaveError])
      else if isNo lowerCaseText then
        (⟨none, none, st.gastosFile⟩, [Reply.keptOther])
      else
        (st, [Reply.invalidCategoryReply])
  | some SessionType.clear_confirm =>
    if isYes lowerCaseText then
      match st.gastosFile with
      | some fileContent =>
        if trimChars fileContent.data = [] then
          (⟨none, st.lastAddedExpenseData, some fileContent⟩, [Reply.alreadyEmptyFile])
        else if m.clearOk then
          (⟨none, st.lastAddedExpenseData, none⟩, [Reply.cleared])
        else
          (⟨none, st.lastAddedExpenseData, some fileContent⟩, [Reply.clearError])
      | none => (⟨none, st.lastAddedExpenseData, none⟩, [Reply.nothingToClear])
    else if isNo lowerCaseText then
      (⟨none, st.lastAddedExpenseData, st.gastosFile⟩, [Reply.clearCancelled])
    else
      (st, [Reply.invalidClearReply])
  | none =>
    if lowerCaseText = "/ajuda" then (st, [Reply.helpText])
    else if lowerCaseText = "/total" then
      let expenses := readExpensesFromFile st.gastosFile
      if expenses.isEmpty then (st, [Reply.noExpenses])
      else (st, [Reply.totalReport (expenses.foldl (fun s e => jsAdd s e.value) (JsNum.num 0))])
    else if lowerCaseText = "/hoje" then
      if (readExpensesFromFile st.gastosFile).isEmpty then (st, [Reply.noExpenses])
      else (st, [Reply.todayReport])
    else if lowerCaseText = "/semana" then
      if (readExpensesFromFile st.gastosFile).isEmpty then (st, [Reply.noExpenses])
      else (st, [Reply.weekReport])
    else if lowerCaseText = "/relatorio" then
      let expenses := readExpensesFromFile st.gastosFile
      if expenses.isEmpty then (st, [Reply.noExpenses])
      else (st, [Reply.fullReport (sortedCategories expenses)])
    else if lowerCaseText = "/limpar" then
      if (readExpensesFromFile st.gastosFile).isEmpty then
        (st, [Reply.nothingToClear])
      else
        (⟨some SessionType.clear_confirm, st.lastAddedExpenseData, st.gastosFile⟩,
         [Reply.clearPrompt])
    else
      match expenseMatch messageText with
      | some (amtStr, descRaw) =>
        let value := jsParseFloat (⟨replaceFirstComma amtStr.data⟩ : String)
        let description := trimStr descRaw
        if value.isNaN = false ∧ description ≠ "" then
          (⟨some (SessionType.expense_confirm value description
                    (suggestCategory description)),
            st.lastAddedExpenseData, st.gastosFile⟩,
           [Reply.expensePrompt value description])
        else (st, [Reply.invalidExpenseFormat])
      | none => (st, [])

/-- Folding a whole inbound conversation through the handler, starting from the
given file content with no session and no Pending Commit (the initial value of
the two tables at process start). -/
def runMessages (gastosFile : Option String) (msgs : List Inbound) : BotState :=
  msgs.foldl (fun st m => (step st m).1) ⟨none, none, gastosFile⟩

/-- Malformed-line predicate, stated independently of parseExpenseLine: fewer
than three semicolon-separated fields, or a value field in which parseFloat
finds no number (and not an Infinity literal). -/
def badLine (line : String) : Bool :=
  match (splitCh ';' line.data).map (fun cs => (⟨cs⟩ : String)) with
  | _ :: rawValue :: _ :: _ => (jsParseFloat rawValue).isNaN
  | _ => true

/-- Record sequence recovered from a list of stored lines: each line parsed,
dropped lines leaving no trace. -/
def parsedLines (lines : List String) : List Expense :=
  lines.filterMap parseExpenseLine

/-- Total finite value of the records of one category, over all records. -/
def sumCat (expenses : List Expense) (c : String) : ℚ :=
  ((expenses.filter (fun e => catOf e = c)).map (fun e => numVal e.value)).sum

/-- First-occurrence order of a list of keys, relative to keys already seen. -/
def firstSeenAux (seen : List String) : List String → List String
  | [] => []
  | c :: cs => if c ∈ seen then firstSeenAux seen cs else c :: firstSeenAux (c :: seen) cs

/-- Category stream of the full report: the (defaulted) category of each
record in order, without the __proto__ categories that never become keys. -/
def reportCats (expenses : List Expense) : List String :=
  (expenses.map catOf).filter (fun c => decide (c ≠ "__proto__"))

/-- The categories of a record list in the order in which each is first seen
while scanning the records (the insertion order of the accumulated keys). -/
def firstSeenCats (expenses : List Expense) : List String :=
  firstSeenAux [] (reportCats expenses)

/-- Total recorded against a category key in an association list, zero when
the key is absent (reading a categoryTotals accumulator). -/
def totalFor (c : String) : List (String × JsNum) → JsNum
  | [] => JsNum.num 0
  | (k, t) :: rest => if k = c then t else totalFor c rest

/-- Shape of an accepted amount: a digit run, or a digit run followed by a
comma and one or two fractional digits. -/
def AmountShape (a : List Char) : Prop :=
  (a ≠ [] ∧ ∀ x ∈ a, x.isDigit = true) ∨
  (∃ ds fs, a = ds ++ ',' :: fs ∧ ds ≠ [] ∧ (∀ x ∈ ds, x.isDigit = true) ∧
    (∀ x ∈ fs, x.isDigit = true) ∧ (fs.length = 1 ∨ fs.length = 2))

/-- Modelled from the spec (with the decimal separator corrected to the comma
the code accepts, and the description condition corrected to what the dot of
the regex enforces): the full accepted message shape, stated as a plain
decomposition of the text - the trigger keyword case-insensitively, blanks, an
amount, blanks, one of the three connector words case-insensitively, blanks,
and a nonempty line-terminator-free description reaching the end of the
text. -/
def ExpenseShape (text : String) : Prop :=
  ∃ g w1 a w2 c w3 d : List Char,
    text.data = g ++ w1 ++ a ++ w2 ++ c ++ w3 ++ d ∧
    g.map Char.toLower = ['g', 'a', 's', 't', 'e', 'i'] ∧
    w1 ≠ [] ∧ (∀ x ∈ w1, isWS x = true) ∧
    AmountShape a ∧
    w2 ≠ [] ∧ (∀ x ∈ w2, isWS x = true) ∧
    (c.map Char.toLower = ['n', 'a'] ∨ c.map Char.toLower = ['n', 'o'] ∨
      c.map Char.toLower = ['c', 'o', 'm']) ∧
    w3 ≠ [] ∧ (∀ x ∈ w3, isWS x = true) ∧
    d ≠ [] ∧ (∀ x ∈ d, isLineTerm x = false)

/-! ## Helper lemmas -/

section
attribute [local semireducible] Rat.mul Rat.inv Rat.add Rat.sub Rat.ofScientific

theorem span_exact {p : Char → Bool} {w r : List Char}
    (hw : ∀ x ∈ w, p x = true) (hr : ∀ c r2, r = c :: r2 → p c = false) :
    (w ++ r).takeWhile p = w ∧ (w ++ r).dropWhile p = r := by
  induction w with
  | nil =>
    cases r with
    | nil => simp
    | cons c r2 => simp [List.takeWhile_cons, List.dropWhile_cons, hr c r2 rfl]
  | cons a w ih =>
    have ha : p a = true := hw a (List.mem_cons_self a w)
    have ih2 := ih (fun x hx => hw x (List.mem_cons_of_mem a hx))
    simp [List.takeWhile_cons, List.dropWhile_cons, ha, ih2.1, ih2.2]

theorem parseExpenseLine_fields (line : String) (exp : Expense)
    (h : parseExpenseLine line = some exp) :
    exp.description ≠ "" ∧ exp.category ≠ "" ∧
    ((((splitCh ';' line.data).map (fun cs => (⟨cs⟩ : String)))[2]? = some "" →
        exp.description = "Sem descrição")) ∧
    ((((splitCh ';' line.data).map (fun cs => (⟨cs⟩ : String)))[3]? = none ∨
      ((splitCh ';' line.data).map (fun cs => (⟨cs⟩ : String)))[3]? = some "" →
        exp.category = "Outros")) := by
  rcases hp : (splitCh ';' line.data).map (fun cs => (⟨cs⟩ : String)) with
    _ | ⟨t, _ | ⟨v, _ | ⟨d, rest⟩⟩⟩ <;>
    simp only [parseExpenseLine, hp] at h
  · exact Option.noConfusion h
  · exact Option.noConfusion h
  · exact Option.noConfusion h
  split at h
  · exact Option.noConfusion h
  obtain rfl := Option.some.inj h
  refine ⟨?_, ?_, ?_, ?_⟩
  · by_cases hd : d = "" <;> simp [hd]
  · rcases rest with _ | ⟨c, rest⟩
    · simp
    · by_cases hc : c = "" <;> simp [hc]
  · intro h2
    simp only [List.getElem?_cons_succ, List.getElem?_cons_zero] at h2
    obtain rfl := Option.some.inj h2
    simp
  · intro h3
    rcases rest with _ | ⟨c, rest⟩
    · simp
    · simp only [List.getElem?_cons_succ, List.getElem?_cons_zero] at h3
      rcases h3 with h3 | h3
      · exact absurd h3 (by simp)
      · obtain rfl := Option.some.inj h3
        simp

theorem parseExpenseLine_eq_none_iff (line : String) :
    parseExpenseLine line = none ↔ badLine line = true := by
  rcases hp : (splitCh ';' line.data).map (fun cs => (⟨cs⟩ : String)) with
    _ | ⟨t, _ | ⟨v, _ | ⟨d, rest⟩⟩⟩ <;>
    simp only [parseExpenseLine, badLine, hp]
  all_goals simp

theorem updateLastAdded_notFound_iff (expenseData : PendingExpense) (es : List Expense) :
    updateLastAdded expenseData es = ScanResult.notFound ↔
      ∀ e ∈ es, (jsDateToISO e.timestamp).isSome = true ∧
        matchesLastAdded expenseData e = false := by
  induction es with
  | nil => simp [updateLastAdded]
  | cons e rest ih =>
    cases hr : updateLastAdded expenseData rest with
    | threw =>
      simp only [updateLastAdded, hr]
      constructor
      · intro hc; exact ScanResult.noConfusion hc
      · intro hall
        have h0 := ih.mpr (fun x hx => hall x (List.mem_cons_of_mem e hx))
        rw [hr] at h0
        exact ScanResult.noConfusion h0
    | updated rest2 =>
      simp only [updateLastAdded, hr]
      constructor
      · intro hc; exact ScanResult.noConfusion hc
      · intro hall
        have h0 := ih.mpr (fun x hx => hall x (List.mem_cons_of_mem e hx))
        rw [hr] at h0
        exact ScanResult.noConfusion h0
    | notFound =>
      simp only [updateLastAdded, hr]
      cases hiso : jsDateToISO e.timestamp with
      | none =>
        constructor
        · intro hc; exact ScanResult.noConfusion hc
        · intro hall
          have h1 := (hall e (List.mem_cons_self e rest)).1
          rw [hiso] at h1
          exact Bool.noConfusion h1
      | some iso =>
        by_cases hm : matchesLastAdded expenseData e = true
        · simp only [hm, if_true]
          constructor
          · intro hc; exact ScanResult.noConfusion hc
          · intro hall
            have h1 := (hall e (List.mem_cons_self e rest)).2
            rw [hm] at h1
            exact Bool.noConfusion h1
        · simp only [Bool.not_eq_true] at hm
          simp only [hm, Bool.false_eq_true, if_false, true_iff]
          intro x hx
          rcases List.mem_cons.mp hx with rfl | hx2
          · exact ⟨by rw [hiso]; rfl, hm⟩
          · exact (ih.mp hr) x hx2

theorem updateLastAdded_updated (expenseData : PendingExpense) (es es2 : List Expense)
    (h : updateLastAdded expenseData es = ScanResult.updated es2) :
    ∃ pre exp post, es = pre ++ exp :: post ∧
      matchesLastAdded expenseData exp = true ∧
      (∀ e ∈ post, (jsDateToISO e.timestamp).isSome = true ∧
        matchesLastAdded expenseData e = false) ∧
      es2 = pre ++ Expense.mk exp.timestamp exp.value exp.description
          expenseData.suggestedCategory :: post := by
  induction es generalizing es2 with
  | nil => exact ScanResult.noConfusion h
  | cons e rest ih =>
    cases hr : updateLastAdded expenseData rest with
    | threw =>
      simp only [updateLastAdded, hr] at h
      exact ScanResult.noConfusion h
    | updated rest2 =>
      simp only [updateLastAdded, hr] at h
      obtain rfl := (ScanResult.updated.inj h).symm
      obtain ⟨pre, x, post, h1, h2, h3, h4⟩ := ih rest2 hr
      exact ⟨e :: pre, x, post, by rw [h1, List.cons_append], h2, h3,
             by rw [h4, List.cons_append]⟩
    | notFound =>
      simp only [updateLastAdded, hr] at h
      cases hiso : jsDateToISO e.timestamp with
      | none =>
        rw [hiso] at h
        exact ScanResult.noConfusion h
      | some iso =>
        rw [hiso] at h
        by_cases hm : matchesLastAdded expenseData e = true
        · rw [if_pos hm] at h
          obtain rfl := (ScanResult.updated.inj h).symm
          exact ⟨[], e, rest, rfl, hm, (updateLastAdded_notFound_iff expenseData rest).mp hr,
                 rfl⟩
        · rw [if_neg hm] at h
          exact ScanResult.noConfusion h

theorem updateLastAdded_threw (expenseData : PendingExpense) (es : List Expense)
    (h : updateLastAdded expenseData es = ScanResult.threw) :
    ∃ pre bad post, es = pre ++ bad :: post ∧
      jsDateToISO bad.timestamp = none ∧
      ∀ e ∈ post, (jsDateToISO e.timestamp).isSome = true ∧
        matchesLastAdded expenseData e = false := by
  induction es with
  | nil => exact ScanResult.noConfusion h
  | cons e rest ih =>
    cases hr : updateLastAdded expenseData rest with
    | threw =>
      obtain ⟨pre, bad, post, h1, h2, h3⟩ := ih hr
      exact ⟨e :: pre, bad, post, by rw [h1, List.cons_append], h2, h3⟩
    | updated rest2 =>
      simp only [updateLastAdded, hr] at h
      exact ScanResult.noConfusion h
    | notFound =>
      simp only [updateLastAdded, hr] at h
      cases hiso : jsDateToISO e.timestamp with
      | none =>
        exact ⟨[], e, rest, rfl, hiso,
               (updateLastAdded_notFound_iff expenseData rest).mp hr⟩
      | some iso =>
        rw [hiso] at h
        by_cases hm : matchesLastAdded expenseData e = true
        · rw [if_pos hm] at h
          exact ScanResult.noConfusion h
        · rw [if_neg hm] at h
          exact ScanResult.noConfusion h

/-! ## Theorems for the claims -/

/-- C10: every record surfaced by readExpensesFromFile has a nonempty
description and a nonempty category; a stored line with at least three fields
but an empty description field yields the default description "Sem descrição",
and a line with a missing or empty fourth field yields the default category
"Outros". -/
theorem C10_read_defaults :
    (∀ gastosFile : Option String, ∀ exp ∈ readExpensesFromFile gastosFile,
        exp.description ≠ "" ∧ exp.category ≠ "") ∧
    (∀ line exp, parseExpenseLine line = some exp →
      exp.description ≠ "" ∧ exp.category ≠ "" ∧
      ((((splitCh ';' line.data).map (fun cs => (⟨cs⟩ : String)))[2]? = some "" →
          exp.description = "Sem descrição")) ∧
      ((((splitCh ';' line.data).map (fun cs => (⟨cs⟩ : String)))[3]? = none ∨
        ((splitCh ';' line.data).map (fun cs => (⟨cs⟩ : String)))[3]? = some "" →
          exp.category = "Outros"))) := by
  refine ⟨?_, fun line exp h => parseExpenseLine_fields line exp h⟩
  intro gastosFile exp hmem
  rcases gastosFile with _ | content
  · simp [readExpensesFromFile] at hmem
  · simp only [readExpensesFromFile] at hmem
    split at hmem
    · simp at hmem
    · rcases List.mem_filterMap.mp hmem with ⟨line, _, hline⟩
      exact ⟨(parseExpenseLine_fields line exp hline).1,
             (parseExpenseLine_fields line exp hline).2.1⟩

/-- Witness for C10 at a concrete line with an empty third field and an empty
fourth field: both defaults fire. -/
theorem C10_read_defaults_witness :
    (Expense.mk "t" (JsNum.num 1) "Sem descrição" "Outros").description ≠ "" ∧
    (Expense.mk "t" (JsNum.num 1) "Sem descrição" "Outros").category ≠ "" := by
  have h := C10_read_defaults.2 "t;1;;"
    (Expense.mk "t" (JsNum.num 1) "Sem descrição" "Outros") (by decide)
  exact ⟨h.1, h.2.1⟩

/-- C6: an absent or blank store reads as the empty ledger; reading is the line
by line parse of the trimmed content; the parse of a line fails exactly when
the line has fewer than three semicolon fields or a value field in which
parseFloat finds NaN; and a malformed line anywhere between other lines
contributes nothing and leaves the records recovered from the surrounding
lines unchanged. -/
theorem C6_read_skips_malformed :
    readExpensesFromFile none = [] ∧
    (∀ content, trimChars content.data = [] → readExpensesFromFile (some content) = []) ∧
    (∀ content, readExpensesFromFile (some content) =
      parsedLines ((splitCh '\n' (trimChars content.data)).map (fun cs => (⟨cs⟩ : String)))) ∧
    (∀ line, parseExpenseLine line = none ↔ badLine line = true) ∧
    (∀ pre bad post, badLine bad = true →
      parsedLines (pre ++ bad :: post) = parsedLines pre ++ parsedLines post) := by
  refine ⟨rfl, ?_, ?_, parseExpenseLine_eq_none_iff, ?_⟩
  · intro content h
    simp [readExpensesFromFile, h]
  · intro content
    simp only [readExpensesFromFile]
    split
    · rename_i h
      rw [h]
      rfl
    · rfl
  · intro pre bad post hbad
    have hnone : parseExpenseLine bad = none := (parseExpenseLine_eq_none_iff bad).mpr hbad
    simp [parsedLines, List.filterMap_append, List.filterMap_cons, hnone]

/-- Witness for C6 at a concrete store content: a malformed two-field line
between two valid lines is skipped and the neighbours are kept unchanged. -/
theorem C6_read_skips_malformed_witness :
    badLine "oops;1" = true ∧
    parsedLines (["a;1;x"] ++ "oops;1" :: ["b;2;y"]) =
      parsedLines ["a;1;x"] ++ parsedLines ["b;2;y"] := by
  refine ⟨by decide, C6_read_skips_malformed.2.2.2.2 ["a;1;x"] "oops;1" ["b;2;y"] (by decide)⟩

/-- C7: the clear yes path on a non-blank store removes the file and reports
removal; invoked again right afterwards (the store now absent) it is safe, does
not touch the store, and reports that there is nothing to delete - the
no-op outcome the spec words as already empty - rather than removal. -/
theorem C7_clear_idempotent (st : BotState) (m m2 : Inbound) (content : String)
    (hsess : st.userConfirmationState = some SessionType.clear_confirm)
    (hfile : st.gastosFile = some content)
    (hne : trimChars content.data ≠ [])
    (hyes : isYes (lowerStr (trimStr m.text)) = true)
    (hok : m.clearOk = true)
    (hyes2 : isYes (lowerStr (trimStr m2.text)) = true) :
    step st m = (⟨none, st.lastAddedExpenseData, none⟩, [Reply.cleared]) ∧
    step ⟨some SessionType.clear_confirm, st.lastAddedExpenseData, none⟩ m2 =
      (⟨none, st.lastAddedExpenseData, none⟩, [Reply.nothingToClear]) ∧
    Reply.nothingToClear ≠ Reply.cleared := by
  refine ⟨?_, ?_, by simp⟩
  · simp [step, hsess, hfile, hne, hyes, hok]
  · simp [step, hyes2]

/-- Witness for C7: a concrete non-blank one-record store, cleared twice. -/
theorem C7_clear_idempotent_witness :
    step ⟨some SessionType.clear_confirm, none, some "a;1;x\n"⟩
        ⟨"sim", "T", true, true, true, true⟩ =
      (⟨none, none, none⟩, [Reply.cleared]) ∧
    step ⟨some SessionType.clear_confirm, none, none⟩ ⟨"s", "T", true, true, true, true⟩ =
      (⟨none, none, none⟩, [Reply.nothingToClear]) ∧
    Reply.nothingToClear ≠ Reply.cleared :=
  C7_clear_idempotent ⟨some SessionType.clear_confirm, none, some "a;1;x\n"⟩
    ⟨"sim", "T", true, true, true, true⟩ ⟨"s", "T", true, true, true, true⟩
    "a;1;x\n" rfl rfl (by decide) (by decide) rfl (by decide)

/-- Counterexample for C1 as stated: a stored line whose timestamp field is
not a parseable date is kept by the read (three fields, numeric value), and
on the category confirmation yes path the toISOString call on it throws, so
although no record matches the Pending Commit the reply is the save-error
message, not the not-found message the claim requires. -/
theorem C1_counterexample :
    step ⟨some SessionType.category_confirm,
          some ⟨"2024-01-01T00:00:00.000Z", JsNum.num 1, "x", "Supermercado"⟩,
          some "garbage;1;x\n"⟩
        ⟨"sim", "T", true, true, true, true⟩ =
      (⟨none, none, some "garbage;1;x\n"⟩, [Reply.categorySaveError]) ∧
    readExpensesFromFile (some "garbage;1;x\n") =
      [⟨"garbage", JsNum.num 1, "x", "Outros"⟩] ∧
    (∀ e ∈ readExpensesFromFile (some "garbage;1;x\n"),
      matchesLastAdded ⟨"2024-01-01T00:00:00.000Z", JsNum.num 1, "x", "Supermercado"⟩ e =
        false) ∧
    Reply.categorySaveError ≠ Reply.categoryNotFound := by
  exact ⟨by decide, by decide, by decide, by decide⟩

/-- C1 (amended): on a yes-class reply in the category confirmation state with
a Pending Commit present, the handler reads all records and resolves the
confirmation; the session and the Pending Commit entry are removed in every
case.  The scan walks from the newest record backwards, normalizing each
scanned timestamp by toISOString: when every record scans without a match the
ledger is untouched and the reply is the not-found message; when a scanned
record's stored timestamp is not a parseable date the attempt ends with the
save-error reply and an untouched ledger (every record after that one having
been scanned without a match); when some record matches the Pending Commit on
normalized timestamp, value and description with category still "Outros", the
newest such record alone has its category set to the suggested category, and
the whole store is rewritten (with normalized timestamps) when the rewrite
serializes and succeeds, the save-error reply leaving the ledger untouched
otherwise. -/
theorem C1_category_confirm_yes (st : BotState) (m : Inbound)
    (expenseData : PendingExpense)
    (hsess : st.userConfirmationState = some SessionType.category_confirm)
    (hdata : st.lastAddedExpenseData = some expenseData)
    (hyes : isYes (lowerStr (trimStr m.text)) = true) :
    ((step st m).1.userConfirmationState = none ∧
     (step st m).1.lastAddedExpenseData = none) ∧
    (updateLastAdded expenseData (readExpensesFromFile st.gastosFile) =
        ScanResult.notFound →
      (step st m).2 = [Reply.categoryNotFound] ∧
      (step st m).1.gastosFile = st.gastosFile ∧
      ∀ e ∈ readExpensesFromFile st.gastosFile,
        (jsDateToISO e.timestamp).isSome = true ∧
        matchesLastAdded expenseData e = false) ∧
    (updateLastAdded expenseData (readExpensesFromFile st.gastosFile) =
        ScanResult.threw →
      (step st m).2 = [Reply.categorySaveError] ∧
      (step st m).1.gastosFile = st.gastosFile ∧
      ∃ pre bad post, readExpensesFromFile st.gastosFile = pre ++ bad :: post ∧
        jsDateToISO bad.timestamp = none ∧
        ∀ e ∈ post, (jsDateToISO e.timestamp).isSome = true ∧
          matchesLastAdded expenseData e = false) ∧
    (∀ expenses2,
      updateLastAdded expenseData (readExpensesFromFile st.gastosFile) =
        ScanResult.updated expenses2 →
      (∃ pre exp post,
        readExpensesFromFile st.gastosFile = pre ++ exp :: post ∧
        matchesLastAdded expenseData exp = true ∧
        (∀ e ∈ post, (jsDateToISO e.timestamp).isSome = true ∧
          matchesLastAdded expenseData e = false) ∧
        expenses2 = pre ++ Expense.mk exp.timestamp exp.value exp.description
            expenseData.suggestedCategory :: post) ∧
      (∀ content, writeExpensesToFile expenses2 = some content →
        m.rewriteOk = true →
        (step st m).2 = [Reply.categoryUpdated expenseData.suggestedCategory] ∧
        (step st m).1.gastosFile = some content) ∧
      (writeExpensesToFile expenses2 = none →
        (step st m).2 = [Reply.categorySaveError] ∧
        (step st m).1.gastosFile = st.gastosFile)) := by
  cases hupd : updateLastAdded expenseData (readExpensesFromFile st.gastosFile) with
  | threw =>
    refine ⟨?_, ?_, ?_, ?_⟩
    · constructor <;> simp [step, hsess, hdata, hyes, hupd]
    · intro habs; exact ScanResult.noConfusion habs
    · intro _
      refine ⟨?_, ?_, updateLastAdded_threw expenseData _ hupd⟩ <;>
        simp [step, hsess, hdata, hyes, hupd]
    · intro es3 habs; exact ScanResult.noConfusion habs
  | notFound =>
    refine ⟨?_, ?_, ?_, ?_⟩
    · constructor <;> simp [step, hsess, hdata, hyes, hupd]
    · intro _
      refine ⟨?_, ?_, (updateLastAdded_notFound_iff expenseData _).mp hupd⟩ <;>
        simp [step, hsess, hdata, hyes, hupd]
    · intro habs; exact ScanResult.noConfusion habs
    · intro es3 habs; exact ScanResult.noConfusion habs
  | updated es2 =>
    refine ⟨?_, ?_, ?_, ?_⟩
    · cases hwr : writeExpensesToFile es2 with
      | none => constructor <;> simp [step, hsess, hdata, hyes, hupd, hwr]
      | some content =>
        cases hrw : m.rewriteOk with
        | false => constructor <;> simp [step, hsess, hdata, hyes, hupd, hwr, hrw]
        | true => constructor <;> simp [step, hsess, hdata, hyes, hupd, hwr, hrw]
    · intro habs; exact ScanResult.noConfusion habs
    · intro habs; exact ScanResult.noConfusion habs
    · intro es3 hes3
      obtain rfl := ScanResult.updated.inj hes3
      refine ⟨updateLastAdded_updated expenseData _ _ hupd, ?_, ?_⟩
      · intro content hcontent hrw
        constructor <;> simp [step, hsess, hdata, hyes, hupd, hcontent, hrw]
      · intro hnone
        constructor <;> simp [step, hsess, hdata, hyes, hupd, hnone]

/-- Witness for C1 (amended) at a concrete one-record store matching the
Pending Commit: the session and the Pending Commit entry are cleared. -/
theorem C1_category_confirm_yes_witness :
    (step ⟨some SessionType.category_confirm,
           some ⟨"2024-01-01T00:00:00.000Z", JsNum.num 1, "x", "Supermercado"⟩,
           some "2024-01-01T00:00:00.000Z;1.00;x;Outros\n"⟩
        ⟨"sim", "T1", true, true, true, true⟩).1.userConfirmationState = none ∧
    (step ⟨some SessionType.category_confirm,
           some ⟨"2024-01-01T00:00:00.000Z", JsNum.num 1, "x", "Supermercado"⟩,
           some "2024-01-01T00:00:00.000Z;1.00;x;Outros\n"⟩
        ⟨"sim", "T1", true, true, true, true⟩).1.lastAddedExpenseData = none :=
  (C1_category_confirm_yes
    ⟨some SessionType.category_confirm,
     some ⟨"2024-01-01T00:00:00.000Z", JsNum.num 1, "x", "Supermercado"⟩,
     some "2024-01-01T00:00:00.000Z;1.00;x;Outros\n"⟩
    ⟨"sim", "T1", true, true, true, true⟩
    ⟨"2024-01-01T00:00:00.000Z", JsNum.num 1, "x", "Supermercado"⟩
    rfl rfl (by decide)).1

theorem step_preserves_pending_inv (st : BotState) (m : Inbound)
    (h : st.lastAddedExpenseData.isSome = true ↔
         st.userConfirmationState = some SessionType.category_confirm) :
    (step st m).1.lastAddedExpenseData.isSome = true ↔
      (step st m).1.userConfirmationState = some SessionType.category_confirm := by
  obtain ⟨sess, la, file⟩ := st
  rcases sess with _ | (⟨v, d, sc⟩ | _ | _) <;>
    simp only at h <;>
    simp only [step] <;>
    repeat' split
  all_goals simp_all

/-- C2: for every initial file content and every sequence of inbound messages
handled one after the other for one conversation, the Pending Commit side-table
entry exists exactly when the session is in the category confirmation state. -/
theorem C2_pending_commit_iff_category_confirm (gastosFile : Option String)
    (msgs : List Inbound) :
    (runMessages gastosFile msgs).lastAddedExpenseData.isSome = true ↔
      (runMessages gastosFile msgs).userConfirmationState =
        some SessionType.category_confirm := by
  suffices h : ∀ st : BotState,
      (st.lastAddedExpenseData.isSome = true ↔
        st.userConfirmationState = some SessionType.category_confirm) →
      ((msgs.foldl (fun s m => (step s m).1) st).lastAddedExpenseData.isSome = true ↔
        (msgs.foldl (fun s m => (step s m).1) st).userConfirmationState =
          some SessionType.category_confirm) by
    exact h ⟨none, none, gastosFile⟩ (by simp)
  induction msgs with
  | nil => intro st hst; exact hst
  | cons m rest ih =>
    intro st hst
    exact ih ((step st m).1) (step_preserves_pending_inv st m hst)

/-- Witness for C2 at a concrete run: after an expense is confirmed, the
session is awaiting category confirmation and the Pending Commit entry exists.
-/
theorem C2_pending_commit_iff_category_confirm_witness :
    (runMessages none
      [⟨"gastei 5 no mercado", "T0", true, true, true, true⟩,
       ⟨"sim", "T1", true, true, true, true⟩]).lastAddedExpenseData.isSome = true ↔
    (runMessages none
      [⟨"gastei 5 no mercado", "T0", true, true, true, true⟩,
       ⟨"sim", "T1", true, true, true, true⟩]).userConfirmationState =
        some SessionType.category_confirm :=
  C2_pending_commit_iff_category_confirm none
    [⟨"gastei 5 no mercado", "T0", true, true, true, true⟩,
     ⟨"sim", "T1", true, true, true, true⟩]

theorem ws_not_digit (c : Char) (h : isWS c = true) : c.isDigit = false := by
  have hcases : c = ' ' ∨ c = '\t' ∨ c = '\n' ∨ c = '\r' ∨ c = '\x0b' ∨ c = '\x0c' := by
    simpa [isWS, or_assoc] using h
  rcases hcases with rfl | rfl | rfl | rfl | rfl | rfl <;> decide

theorem digit_head_facts (c : Char) (hc : c.isDigit = true) :
    isWS c = false ∧ c ≠ '-' ∧ c ≠ ',' := by
  refine ⟨?_, ?_, ?_⟩
  · cases hws : isWS c
    · rfl
    · rw [ws_not_digit c hws] at hc
      exact Bool.noConfusion hc
  · intro heq
    rw [heq] at hc
    exact absurd hc (by decide)
  · intro heq
    rw [heq] at hc
    exact absurd hc (by decide)

theorem jsParseFloatMantissa_nonneg (l : List Char) (q : ℚ)
    (h : jsParseFloatMantissa l = some q) : 0 ≤ q := by
  simp only [jsParseFloatMantissa] at h
  split at h
  · exact Option.noConfusion h
  · obtain rfl := Option.some.inj h
    have h10 : (0 : ℚ) ≤ 10 := by norm_num
    refine mul_nonneg (add_nonneg (Nat.cast_nonneg _) ?_) (zpow_nonneg h10 _)
    exact div_nonneg (Nat.cast_nonneg _) (pow_nonneg h10 _)

theorem jsParseFloatMantissa_some_of_digit_head (c : Char) (cs : List Char)
    (hc : c.isDigit = true) : ∃ q, jsParseFloatMantissa (c :: cs) = some q := by
  have h1 : ((c :: cs).takeWhile Char.isDigit).isEmpty = false := by
    simp [List.takeWhile_cons, hc]
  simp only [jsParseFloatMantissa, h1, Bool.false_and, Bool.false_eq_true, if_false]
  exact ⟨_, rfl⟩

theorem jsParseFloat_num_of_digit_head (c : Char) (cs : List Char) (hc : c.isDigit = true) :
    ∃ q, jsParseFloat ⟨c :: cs⟩ = JsNum.num q ∧ 0 ≤ q := by
  obtain ⟨hws, hminus, _⟩ := digit_head_facts c hc
  obtain ⟨q, hq⟩ := jsParseFloatMantissa_some_of_digit_head c cs hc
  have hplus : c ≠ '+' := fun he => by rw [he] at hc; exact absurd hc (by decide)
  have hbeq : ('I' == c) = false := by
    cases hbe : ('I' == c)
    · rfl
    · have heqc : 'I' = c := beq_iff_eq.mp hbe
      rw [← heqc] at hc
      exact absurd hc (by decide)
  have hpre : (['I', 'n', 'f', 'i', 'n', 'i', 't', 'y'].isPrefixOf (c :: cs)) = false := by
    simp only [List.isPrefixOf, hbeq, Bool.false_and]
  refine ⟨q, ?_, jsParseFloatMantissa_nonneg _ q hq⟩
  simp only [jsParseFloat, List.dropWhile_cons, hws, Bool.false_eq_true, if_false]
  split
  · rename_i r heq
    rw [List.cons.injEq] at heq
    exact absurd heq.1 hminus
  · rename_i r heq
    rw [List.cons.injEq] at heq
    exact absurd heq.1 hplus
  · simp [jsParseFloatMag, hpre, hq]

theorem matchAmount_head_digit (l a r : List Char) (h : matchAmount l = some (a, r)) :
    ∃ c cs, a = c :: cs ∧ c.isDigit = true := by
  rcases hds : l.takeWhile Char.isDigit with _ | ⟨c, cs⟩ <;>
    simp only [matchAmount, hds, List.isEmpty_nil, List.isEmpty_cons, if_true,
      Bool.false_eq_true, if_false] at h
  · exact Option.noConfusion h
  have hc : c.isDigit = true :=
    List.mem_takeWhile_imp (l := l) (by rw [hds]; exact List.mem_cons_self c cs)
  split at h
  · rename_i r2 heq
    split at h
    · simp only [Option.some.injEq, Prod.mk.injEq] at h
      obtain ⟨rfl, rfl⟩ := h
      exact ⟨c, cs ++ ',' :: r2.takeWhile Char.isDigit, by simp, hc⟩
    · simp only [Option.some.injEq, Prod.mk.injEq] at h
      obtain ⟨rfl, rfl⟩ := h
      exact ⟨c, cs, rfl, hc⟩
  · simp only [Option.some.injEq, Prod.mk.injEq] at h
    obtain ⟨rfl, rfl⟩ := h
    exact ⟨c, cs, rfl, hc⟩

theorem expenseMatch_amount_head_digit (text amt desc : String)
    (h : expenseMatch text = some (amt, desc)) :
    ∃ c cs, amt.data = c :: cs ∧ c.isDigit = true := by
  simp only [expenseMatch] at h
  split at h
  · exact Option.noConfusion h
  split at h
  · exact Option.noConfusion h
  split at h
  · exact Option.noConfusion h
  rename_i r0 a r2 hma
  split at h
  · exact Option.noConfusion h
  split at h
  · exact Option.noConfusion h
  split at h
  · exact Option.noConfusion h
  rename_i d hd
  simp only [Option.some.injEq, Prod.mk.injEq] at h
  obtain ⟨rfl, rfl⟩ := h
  obtain ⟨c, cs, hacs, hc⟩ := matchAmount_head_digit _ _ _ hma
  exact ⟨c, cs, by rw [hacs], hc⟩

theorem replaceFirstComma_parse_num (amt : String)
    (hhead : ∃ c cs, amt.data = c :: cs ∧ c.isDigit = true) :
    ∃ q, jsParseFloat (⟨replaceFirstComma amt.data⟩ : String) = JsNum.num q ∧ 0 ≤ q := by
  obtain ⟨c, cs, hacs, hc⟩ := hhead
  obtain ⟨_, _, hcomma⟩ := digit_head_facts c hc
  rw [hacs]
  simp only [replaceFirstComma, hcomma, if_false]
  exact jsParseFloat_num_of_digit_head c _ hc

theorem takeWhile_append_all {p : Char → Bool} {w : List Char} (r : List Char)
    (hw : ∀ x ∈ w, p x = true) :
    (w ++ r).takeWhile p = w ++ r.takeWhile p ∧ (w ++ r).dropWhile p = r.dropWhile p := by
  induction w with
  | nil => simp
  | cons a w ih =>
    have ha : p a = true := hw a (List.mem_cons_self a w)
    have ih2 := ih (fun x hx => hw x (List.mem_cons_of_mem a hx))
    simp [List.takeWhile_cons, List.dropWhile_cons, ha, ih2.1, ih2.2]

theorem stripCI_iff (pat : List Char) :
    ∀ l r : List Char, (stripCI pat l = some r ↔
      ∃ g, l = g ++ r ∧ g.map Char.toLower = pat) := by
  induction pat with
  | nil =>
    intro l r
    simp only [stripCI, Option.some.injEq]
    constructor
    · intro h
      exact ⟨[], by simp [h], rfl⟩
    · rintro ⟨g, rfl, hg⟩
      obtain rfl : g = [] := List.map_eq_nil_iff.mp hg
      simp
  | cons p ps ih =>
    intro l r
    cases l with
    | nil =>
      simp only [stripCI]
      constructor
      · intro h; exact Option.noConfusion h
      · rintro ⟨g, hg, hmap⟩
        obtain ⟨c0, g2, rfl⟩ : ∃ c0 g2, g = c0 :: g2 := by
          cases g with
          | nil => exact absurd hmap (by simp)
          | cons c0 g2 => exact ⟨c0, g2, rfl⟩
        exact absurd hg (by simp)
    | cons c cs =>
      simp only [stripCI]
      by_cases hc : c.toLower = p
      · rw [if_pos hc, ih cs r]
        constructor
        · rintro ⟨g, rfl, hmap⟩
          exact ⟨c :: g, rfl, by simp [hc, hmap]⟩
        · rintro ⟨g, hg, hmap⟩
          cases g with
          | nil => exact absurd hmap (by simp)
          | cons c0 g2 =>
            simp only [List.map_cons, List.cons.injEq] at hmap
            simp only [List.cons_append, List.cons.injEq] at hg
            exact ⟨g2, hg.2, hmap.2⟩
      · rw [if_neg hc]
        constructor
        · intro h; exact Option.noConfusion h
        · rintro ⟨g, hg, hmap⟩
          cases g with
          | nil => exact absurd hmap (by simp)
          | cons c0 g2 =>
            simp only [List.map_cons, List.cons.injEq] at hmap
            simp only [List.cons_append, List.cons.injEq] at hg
            exact absurd (hg.1 ▸ hmap.1) hc

theorem matchAmount_some_decomp (l a r : List Char) (h : matchAmount l = some (a, r)) :
    l = a ++ r ∧ AmountShape a := by
  rcases hds : l.takeWhile Char.isDigit with _ | ⟨c, cs⟩ <;>
    simp only [matchAmount, hds, List.isEmpty_nil, List.isEmpty_cons, if_true,
      Bool.false_eq_true, if_false] at h
  · exact Option.noConfusion h
  have hl : l = (c :: cs) ++ l.dropWhile Char.isDigit := by
    rw [← hds]
    exact (List.takeWhile_append_dropWhile Char.isDigit l).symm
  have hdig : ∀ x ∈ c :: cs, x.isDigit = true := by
    intro x hx
    exact List.mem_takeWhile_imp (l := l) (by rw [hds]; exact hx)
  split at h
  · rename_i r2 heq
    split at h
    · rename_i hlen
      simp only [Option.some.injEq, Prod.mk.injEq] at h
      obtain ⟨rfl, rfl⟩ := h
      have hfs : ∀ x ∈ r2.takeWhile Char.isDigit, x.isDigit = true := by
        intro x hx
        exact List.mem_takeWhile_imp hx
      constructor
      · rw [hl, heq]
        simp only [List.append_assoc, List.cons_append]
        rw [← List.takeWhile_append_dropWhile Char.isDigit r2]
        simp
      · right
        refine ⟨c :: cs, r2.takeWhile Char.isDigit, by simp, by simp, hdig, hfs, ?_⟩
        rcases Bool.or_eq_true .. |>.mp hlen with h1 | h1
        · exact Or.inl (by simpa using h1)
        · exact Or.inr (by simpa using h1)
    · simp only [Option.some.injEq, Prod.mk.injEq] at h
      obtain ⟨rfl, rfl⟩ := h
      exact ⟨hl, Or.inl ⟨by simp, hdig⟩⟩
  · simp only [Option.some.injEq, Prod.mk.injEq] at h
    obtain ⟨rfl, rfl⟩ := h
    exact ⟨hl, Or.inl ⟨by simp, hdig⟩⟩

theorem matchAmount_of_shape (a w2 rest : List Char) (hsh : AmountShape a)
    (hw2 : w2 ≠ []) (hws : ∀ x ∈ w2, isWS x = true) :
    matchAmount (a ++ (w2 ++ rest)) = some (a, w2 ++ rest) := by
  obtain ⟨c0, w2t, rfl⟩ : ∃ c0 w2t, w2 = c0 :: w2t := by
    cases w2 with
    | nil => exact absurd rfl hw2
    | cons c0 w2t => exact ⟨c0, w2t, rfl⟩
  have hc0 : isWS c0 = true := hws c0 (List.mem_cons_self c0 w2t)
  have hc0d : c0.isDigit = false := ws_not_digit c0 hc0
  have hc0c : c0 ≠ ',' := fun h => by rw [h] at hc0; exact absurd hc0 (by decide)
  rcases hsh with ⟨hne, hdig⟩ | ⟨ds, fs, rfl, hdsne, hds, hfs, hlen⟩
  · have hr : ∀ x r2, (c0 :: w2t) ++ rest = x :: r2 → Char.isDigit x = false := by
      intro x r2 hx
      rw [List.cons_append, List.cons.injEq] at hx
      rw [← hx.1]
      exact hc0d
    have hspan := span_exact (p := Char.isDigit) hdig hr
    have hae : a.isEmpty = false := by
      cases a with
      | nil => exact absurd rfl hne
      | cons x xs => rfl
    simp only [matchAmount, hspan.1, hspan.2, hae, Bool.false_eq_true, if_false]
    split
    · rename_i r2 heq
      rw [List.cons_append, List.cons.injEq] at heq
      exact absurd heq.1 hc0c
    · rfl
  · have hdse : ds.isEmpty = false := by
      cases ds with
      | nil => exact absurd rfl hdsne
      | cons x xs => rfl
    have hr1 : ∀ x r2, ',' :: (fs ++ ((c0 :: w2t) ++ rest)) = x :: r2 →
        Char.isDigit x = false := by
      intro x r2 hx
      rw [List.cons.injEq] at hx
      rw [← hx.1]
      decide
    have hspan := span_exact (p := Char.isDigit) hds hr1
    have hr2 : ∀ x r2, (c0 :: w2t) ++ rest = x :: r2 → Char.isDigit x = false := by
      intro x r2 hx
      rw [List.cons_append, List.cons.injEq] at hx
      rw [← hx.1]
      exact hc0d
    have hspan2 := span_exact (p := Char.isDigit) hfs hr2
    have harr : (ds ++ ',' :: fs) ++ ((c0 :: w2t) ++ rest) =
        ds ++ (',' :: (fs ++ ((c0 :: w2t) ++ rest))) := by simp
    rw [harr]
    have hlen2 : (fs.length = 1 || fs.length = 2) = true := by
      rcases hlen with h1 | h1 <;> simp [h1]
    simp only [matchAmount, hspan.1, hspan.2, hdse, Bool.false_eq_true, if_false,
      hspan2.1, hspan2.2, hlen2, if_true]

theorem matchConn_some (l r : List Char) (h : matchConn l = some r) :
    ∃ c, l = c ++ r ∧ (c.map Char.toLower = ['n', 'a'] ∨ c.map Char.toLower = ['n', 'o'] ∨
      c.map Char.toLower = ['c', 'o', 'm']) := by
  simp only [matchConn] at h
  split at h
  · rename_i heq
    obtain rfl := Option.some.inj h
    obtain ⟨g, rfl, hg⟩ := (stripCI_iff _ _ _).mp heq
    exact ⟨g, rfl, Or.inl hg⟩
  split at h
  · rename_i heq
    obtain rfl := Option.some.inj h
    obtain ⟨g, rfl, hg⟩ := (stripCI_iff _ _ _).mp heq
    exact ⟨g, rfl, Or.inr (Or.inl hg)⟩
  · obtain ⟨g, rfl, hg⟩ := (stripCI_iff _ _ _).mp h
    exact ⟨g, rfl, Or.inr (Or.inr hg)⟩

theorem matchConn_of_shape (c rest : List Char)
    (hc : c.map Char.toLower = ['n', 'a'] ∨ c.map Char.toLower = ['n', 'o'] ∨
      c.map Char.toLower = ['c', 'o', 'm']) :
    matchConn (c ++ rest) = some rest := by
  rcases hc with hc | hc | hc
  · have h1 : stripCI ['n', 'a'] (c ++ rest) = some rest :=
      (stripCI_iff _ _ _).mpr ⟨c, rfl, hc⟩
    simp [matchConn, h1]
  · obtain ⟨c0, c1, rfl⟩ : ∃ c0 c1, c = [c0, c1] := by
      rcases c with _ | ⟨c0, _ | ⟨c1, _ | _⟩⟩ <;> simp_all
    simp only [List.map_cons, List.map_nil, List.cons.injEq, and_true] at hc
    have h2 : stripCI ['n', 'o'] ([c0, c1] ++ rest) = some rest :=
      (stripCI_iff _ _ _).mpr ⟨[c0, c1], rfl, by simp [hc.1, hc.2]⟩
    have h1 : stripCI ['n', 'a'] ([c0, c1] ++ rest) = none := by
      simp only [stripCI, List.cons_append, List.nil_append, hc.1, if_true, hc.2]
      rw [if_neg (by decide)]
    simp only [List.cons_append, List.nil_append] at h1 h2
    simp [matchConn, h1, h2]
  · obtain ⟨c0, c1, c2, rfl⟩ : ∃ c0 c1 c2, c = [c0, c1, c2] := by
      rcases c with _ | ⟨c0, _ | ⟨c1, _ | ⟨c2, _ | _⟩⟩⟩ <;> simp_all
    simp only [List.map_cons, List.map_nil, List.cons.injEq, and_true] at hc
    have h3 : stripCI ['c', 'o', 'm'] ([c0, c1, c2] ++ rest) = some rest :=
      (stripCI_iff _ _ _).mpr ⟨[c0, c1, c2], rfl, by simp [hc.1, hc.2.1, hc.2.2]⟩
    have h1 : stripCI ['n', 'a'] ([c0, c1, c2] ++ rest) = none := by
      simp only [stripCI, List.cons_append, List.nil_append, hc.1]
      rw [if_neg (by decide)]
    have h2 : stripCI ['n', 'o'] ([c0, c1, c2] ++ rest) = none := by
      simp only [stripCI, List.cons_append, List.nil_append, hc.1]
      rw [if_neg (by decide)]
    simp only [List.cons_append, List.nil_append] at h1 h2 h3
    simp [matchConn, h1, h2, h3]
theorem isEmpty_false_of_ne_nil {l : List Char} (h : l ≠ []) : l.isEmpty = false := by
  cases l with
  | nil => exact absurd rfl h
  | cons x xs => rfl

theorem lower_n_or_c_not_ws (c0 : Char) (h : c0.toLower = 'n' ∨ c0.toLower = 'c') :
    isWS c0 = false := by
  rcases hws : isWS c0 with _ | _
  · rfl
  · exfalso
    have hcases : c0 = ' ' ∨ c0 = '\t' ∨ c0 = '\n' ∨ c0 = '\r' ∨ c0 = '\x0b' ∨
        c0 = '\x0c' := by
      simpa [isWS, or_assoc] using hws
    rcases hcases with rfl | rfl | rfl | rfl | rfl | rfl <;>
      rcases h with h | h <;> exact absurd h (by decide)

theorem amountShape_head (a : List Char) (h : AmountShape a) :
    ∃ c1 a1, a = c1 :: a1 ∧ c1.isDigit = true := by
  rcases h with ⟨hne, hdig⟩ | ⟨ds, fs, rfl, hdsne, hds, _, _⟩
  · cases a with
    | nil => exact absurd rfl hne
    | cons c1 a1 => exact ⟨c1, a1, rfl, hdig c1 (List.mem_cons_self c1 a1)⟩
  · cases ds with
    | nil => exact absurd rfl hdsne
    | cons c1 ds1 => exact ⟨c1, ds1 ++ ',' :: fs, by simp, hds c1 (List.mem_cons_self c1 ds1)⟩

theorem connShape_head (c : List Char)
    (h : c.map Char.toLower = ['n', 'a'] ∨ c.map Char.toLower = ['n', 'o'] ∨
      c.map Char.toLower = ['c', 'o', 'm']) :
    ∃ c0 crest, c = c0 :: crest ∧ isWS c0 = false := by
  cases c with
  | nil => rcases h with h | h | h <;> exact absurd h (by simp)
  | cons c0 crest =>
    refine ⟨c0, crest, rfl, lower_n_or_c_not_ws c0 ?_⟩
    rcases h with h | h | h <;>
      simp only [List.map_cons, List.cons.injEq] at h
    · exact Or.inl h.1
    · exact Or.inl h.1
    · exact Or.inr h.1

theorem matchDescTail_isSome_iff (l : List Char) :
    (matchDescTail l).isSome = true ↔
      ∃ w d, l = w ++ d ∧ w ≠ [] ∧ (∀ x ∈ w, isWS x = true) ∧ d ≠ [] ∧
        ∀ x ∈ d, isLineTerm x = false := by
  have hl : l = l.takeWhile isWS ++ l.dropWhile isWS :=
    (List.takeWhile_append_dropWhile isWS l).symm
  have hwws : ∀ x ∈ l.takeWhile isWS, isWS x = true := fun x hx =>
    List.mem_takeWhile_imp hx
  constructor
  · intro h
    simp only [matchDescTail] at h
    split at h
    · exact absurd h (by simp)
    rename_i hwe
    have hwne : l.takeWhile isWS ≠ [] := by
      intro h0
      rw [h0] at hwe
      exact hwe rfl
    split at h
    · rename_i hte
      have hteq : l.dropWhile isWS = [] := List.isEmpty_iff.mp hte
      split at h
      · rename_i c hgl
        split at h
        · rename_i hcond
          simp only [Bool.and_eq_true, decide_eq_true_eq, Bool.not_eq_true'] at hcond
          have hdl : (l.takeWhile isWS).dropLast ++ [c] = l.takeWhile isWS :=
            List.dropLast_append_getLast? c (by rw [hgl]; rfl)
          refine ⟨(l.takeWhile isWS).dropLast, [c], ?_, ?_, ?_, by simp, ?_⟩
          · rw [hdl]
            conv_lhs => rw [hl]
            rw [hteq, List.append_nil]
          · have hlen : 0 < (l.takeWhile isWS).dropLast.length := by
              rw [List.length_dropLast]
              omega
            exact List.ne_nil_of_length_pos hlen
          · intro x hx
            exact hwws x ((List.dropLast_sublist _).mem hx)
          · intro x hx
            rw [List.mem_singleton] at hx
            rw [hx]
            exact hcond.2
        · exact absurd h (by simp)
      · exact absurd h (by simp)
    split at h
    · exact absurd h (by simp)
    rename_i hte hcont
    rw [Bool.not_eq_true] at hcont
    refine ⟨l.takeWhile isWS, l.dropWhile isWS, hl, hwne, hwws, ?_, ?_⟩
    · intro h0
      rw [h0] at hte
      exact hte rfl
    · intro x hx
      cases hlt : isLineTerm x with
      | false => rfl
      | true =>
        have : (l.dropWhile isWS).any isLineTerm = true :=
          List.any_eq_true.mpr ⟨x, hx, hlt⟩
        rw [hcont] at this
        exact Bool.noConfusion this
  · rintro ⟨w, d, rfl, hwne, hws, hdne, hnl⟩
    have hspan := takeWhile_append_all (p := isWS) d hws
    simp only [matchDescTail, hspan.1, hspan.2]
    have hwie : (w ++ d.takeWhile isWS).isEmpty = false := by
      cases w with
      | nil => exact absurd rfl hwne
      | cons x xs => rfl
    rw [hwie]
    simp only [Bool.false_eq_true, if_false]
    by_cases hte : (d.dropWhile isWS).isEmpty = true
    · rw [if_pos hte]
      have hdeq : d.dropWhile isWS = [] := List.isEmpty_iff.mp hte
      have hdall : ∀ x ∈ d, isWS x = true := List.dropWhile_eq_nil_iff.mp hdeq
      have hdtake : d.takeWhile isWS = d := List.takeWhile_eq_self_iff.mpr hdall
      have hgl : (w ++ d.takeWhile isWS).getLast? = some (d.getLast hdne) := by
        rw [hdtake]
        rw [List.getLast?_append_of_ne_nil _ hdne]
        exact List.getLast?_eq_getLast d hdne
      simp only [hgl]
      have hcond : (decide (2 ≤ (w ++ List.takeWhile isWS d).length) &&
          !isLineTerm (d.getLast hdne)) = true := by
        simp only [Bool.and_eq_true, decide_eq_true_eq, Bool.not_eq_true']
        constructor
        · rw [hdtake, List.length_append]
          have h1 : 0 < w.length := List.length_pos_of_ne_nil hwne
          have h2 : 0 < d.length := List.length_pos_of_ne_nil hdne
          omega
        · exact hnl (d.getLast hdne) (List.getLast_mem hdne)
      rw [if_pos hcond]
      rfl
    · rw [if_neg hte]
      have hcont : (d.dropWhile isWS).any isLineTerm = false := by
        cases hcc : (d.dropWhile isWS).any isLineTerm with
        | false => rfl
        | true =>
          obtain ⟨x, hx, hlt⟩ := List.any_eq_true.mp hcc
          have hxd : x ∈ d := (List.dropWhile_sublist (p := isWS) (l := d)).mem hx
          rw [hnl x hxd] at hlt
          exact Bool.noConfusion hlt
      rw [hcont]
      simp

/-- Counterexample for C3 as stated: an amount written with a dot separator is
not accepted by expenseRegex (gastei 25.50 no cinema yields no match, while
the comma form of the same message matches); a message whose description is
nonempty after trimming but contains a carriage return is not accepted either
(the regex dot matches no line terminator); and a message whose description
region is all blanks is accepted with a capture that trims to the empty
string, so the parser does not demand a non-empty trimmed description. -/
theorem C3_counterexample :
    expenseMatch "gastei 25.50 no cinema" = none ∧
    expenseMatch "gastei 25,50 no cinema" = some ("25,50", "cinema") ∧
    expenseMatch "gastei 5 no a\rb" = none ∧
    expenseMatch "gastei 5 no  " = some ("5", " ") ∧ trimStr " " = "" := by
  exact ⟨by decide, by decide, by decide, by decide, by decide⟩

/-- C3 (amended): the expense parser accepts exactly the texts of the shape
trigger keyword gastei (case-insensitive), blanks, an amount that is a digit
run optionally followed by a comma and one or two fractional digits (the comma
is the only accepted decimal separator - a dot amount like 25.50 does not
match), blanks, a connector word na, no or com (case-insensitive), blanks, and
a nonempty description free of line terminators running to the end of the
text (it may consist of blanks only); any other shape yields no match. -/
theorem C3_expense_parser_shape (text : String) :
    (expenseMatch text).isSome = true ↔ ExpenseShape text := by
  constructor
  · intro h
    simp only [expenseMatch] at h
    split at h
    · exact absurd h (by simp)
    rename_i r0 hstrip
    obtain ⟨g, hgt, hgmap⟩ := (stripCI_iff _ _ _).mp hstrip
    split at h
    · exact absurd h (by simp)
    rename_i hw1
    split at h
    · exact absurd h (by simp)
    rename_i a r2 hma
    obtain ⟨hr1, hshape⟩ := matchAmount_some_decomp _ _ _ hma
    split at h
    · exact absurd h (by simp)
    rename_i hw2
    split at h
    · exact absurd h (by simp)
    rename_i r4 hconn
    obtain ⟨c, hr3, hcshape⟩ := matchConn_some _ _ hconn
    split at h
    · exact absurd h (by simp)
    rename_i d hdesc
    have hdt : (matchDescTail r4).isSome = true := by rw [hdesc]; rfl
    obtain ⟨w3, dd, hr4, hw3ne, hw3ws, hddne, hddnl⟩ :=
      (matchDescTail_isSome_iff r4).mp hdt
    refine ⟨g, r0.takeWhile isWS, a, r2.takeWhile isWS, c, w3, dd,
      ?_, hgmap, ?_, (fun x hx => List.mem_takeWhile_imp hx), hshape,
      ?_, (fun x hx => List.mem_takeWhile_imp hx), hcshape, hw3ne, hw3ws, hddne, hddnl⟩
    · calc text.data = g ++ r0 := hgt
        _ = g ++ (r0.takeWhile isWS ++ r0.dropWhile isWS) := by
            rw [List.takeWhile_append_dropWhile]
        _ = g ++ (r0.takeWhile isWS ++ (a ++ r2)) := by rw [hr1]
        _ = g ++ (r0.takeWhile isWS ++ (a ++ (r2.takeWhile isWS ++ r2.dropWhile isWS))) := by
            rw [List.takeWhile_append_dropWhile]
        _ = g ++ (r0.takeWhile isWS ++ (a ++ (r2.takeWhile isWS ++ (c ++ r4)))) := by
            rw [hr3]
        _ = g ++ (r0.takeWhile isWS ++ (a ++ (r2.takeWhile isWS ++ (c ++ (w3 ++ dd))))) := by
            rw [hr4]
        _ = g ++ r0.takeWhile isWS ++ a ++ r2.takeWhile isWS ++ c ++ w3 ++ dd := by
            simp [List.append_assoc]
    · intro h0
      rw [h0] at hw1
      exact hw1 rfl
    · intro h0
      rw [h0] at hw2
      exact hw2 rfl
  · rintro ⟨g, w1, a, w2, c, w3, d, hdata, hgmap, hw1ne, hw1ws, hshape, hw2ne, hw2ws,
      hcshape, hw3ne, hw3ws, hdne, hnl⟩
    obtain ⟨a0, a1, ha, ha0⟩ := amountShape_head a hshape
    obtain ⟨c0, crest, hcc, hc0⟩ := connShape_head c hcshape
    have hstrip : stripCI ['g', 'a', 's', 't', 'e', 'i'] text.data =
        some (w1 ++ (a ++ (w2 ++ (c ++ (w3 ++ d))))) := by
      refine (stripCI_iff _ _ _).mpr ⟨g, ?_, hgmap⟩
      rw [hdata]
      simp [List.append_assoc]
    have span1 := span_exact (p := isWS) (w := w1) (r := a ++ (w2 ++ (c ++ (w3 ++ d))))
      hw1ws (by
        intro x r2 hx
        rw [ha, List.cons_append, List.cons.injEq] at hx
        rw [← hx.1]
        exact (digit_head_facts a0 ha0).1)
    have hmam := matchAmount_of_shape a w2 (c ++ (w3 ++ d)) hshape hw2ne hw2ws
    have span2 := span_exact (p := isWS) (w := w2) (r := c ++ (w3 ++ d))
      hw2ws (by
        intro x r2 hx
        rw [hcc, List.cons_append, List.cons.injEq] at hx
        rw [← hx.1]
        exact hc0)
    have hmc := matchConn_of_shape c (w3 ++ d) hcshape
    have hmd : (matchDescTail (w3 ++ d)).isSome = true :=
      (matchDescTail_isSome_iff (w3 ++ d)).mpr ⟨w3, d, rfl, hw3ne, hw3ws, hdne, hnl⟩
    obtain ⟨dd, hdd⟩ := Option.isSome_iff_exists.mp hmd
    simp only [expenseMatch, hstrip, span1.1, span1.2, isEmpty_false_of_ne_nil hw1ne,
      Bool.false_eq_true, if_false, hmam, span2.1, span2.2,
      isEmpty_false_of_ne_nil hw2ne, hmc, hdd, Option.isSome_some]

/-- Witness for C3 (amended) at a concrete accepted message: the parser match
yields the shape decomposition. -/
theorem C3_expense_parser_shape_witness : ExpenseShape "gastei 9 no x" :=
  (C3_expense_parser_shape "gastei 9 no x").mp (by decide)

theorem digitChar_digit_of_lt (k : Nat) (h : k < 10) : (Nat.digitChar k).isDigit = true := by
  interval_cases k <;> decide

theorem toDigitsCore_digits (fuel : Nat) :
    ∀ (n : Nat) (ds : List Char), (∀ c ∈ ds, c.isDigit = true) →
      ∀ c ∈ Nat.toDigitsCore 10 fuel n ds, c.isDigit = true := by
  induction fuel with
  | zero => intro n ds hds; simpa [Nat.toDigitsCore] using hds
  | succ fuel ih =>
    intro n ds hds
    simp only [Nat.toDigitsCore]
    have hcons : ∀ c ∈ Nat.digitChar (n % 10) :: ds, c.isDigit = true := by
      intro c hc
      rcases List.mem_cons.mp hc with rfl | hc2
      · exact digitChar_digit_of_lt _ (Nat.mod_lt _ (by norm_num))
      · exact hds c hc2
    split
    · exact hcons
    · exact ih (n / 10) _ hcons

theorem toDigitsCore_ne_nil (fuel : Nat) :
    ∀ (n : Nat) (ds : List Char), ds ≠ [] → Nat.toDigitsCore 10 fuel n ds ≠ [] := by
  induction fuel with
  | zero => intro n ds h; simpa [Nat.toDigitsCore] using h
  | succ fuel ih =>
    intro n ds h
    simp only [Nat.toDigitsCore]
    split
    · simp
    · exact ih _ _ (by simp)

theorem toDigits_digits (n : Nat) : ∀ c ∈ Nat.toDigits 10 n, c.isDigit = true :=
  toDigitsCore_digits (n + 1) n [] (by simp)

theorem toDigits_ne_nil (n : Nat) : Nat.toDigits 10 n ≠ [] := by
  simp only [Nat.toDigits, Nat.toDigitsCore]
  split
  · simp
  · exact toDigitsCore_ne_nil n (n / 10) _ (by simp)

theorem toDigits_len_one (k : Nat) (h : k < 10) :
    Nat.toDigits 10 k = [Nat.digitChar k] := by
  simp only [Nat.toDigits, Nat.toDigitsCore]
  rw [Nat.div_eq_of_lt h, Nat.mod_eq_of_lt h]
  simp

theorem toDigits_len_two (k : Nat) (h1 : 10 ≤ k) (h2 : k < 100) :
    (Nat.toDigits 10 k).length = 2 := by
  obtain ⟨j, rfl⟩ : ∃ j, k = j + 1 := ⟨k - 1, by omega⟩
  have hd1 : ¬((j + 1) / 10 = 0) := by omega
  have hd2 : (j + 1) / 10 / 10 = 0 := by omega
  simp only [Nat.toDigits, Nat.toDigitsCore, hd1, if_false, hd2, if_true]
  rfl

theorem joinSep_cons₂ (sep a b : String) (rest : List String) :
    joinSep sep (a :: b :: rest) = a ++ sep ++ joinSep sep (b :: rest) := rfl

theorem toFixed2_shape (q : ℚ) (hq : |q| < (10 : ℚ) ^ 21) :
    ∃ sgn ip fp : List Char, (toFixed2 (JsNum.num q)).data = sgn ++ ip ++ '.' :: fp ∧
      (0 ≤ q → sgn = []) ∧ (q < 0 → sgn = ['-']) ∧
      ip ≠ [] ∧ (∀ c ∈ ip, c.isDigit = true) ∧
      fp.length = 2 ∧ (∀ c ∈ fp, c.isDigit = true) := by
  have hbig : ¬ ((10 : ℚ) ^ 21 ≤ |q|) := not_le.mpr hq
  refine ⟨if q < 0 then ['-'] else [],
          Nat.toDigits 10 ((⌊|q| * 100 + 1 / 2⌋).toNat / 100),
          if (⌊|q| * 100 + 1 / 2⌋).toNat % 100 < 10
            then '0' :: Nat.toDigits 10 ((⌊|q| * 100 + 1 / 2⌋).toNat % 100)
            else Nat.toDigits 10 ((⌊|q| * 100 + 1 / 2⌋).toNat % 100),
          ?_, ?_, ?_, toDigits_ne_nil _, toDigits_digits _, ?_, ?_⟩
  · simp only [toFixed2, hbig, if_false, List.append_assoc]
  · intro h0
    rw [if_neg (not_lt.mpr h0)]
  · intro h0
    rw [if_pos h0]
  · split
    · rename_i hlt
      rw [toDigits_len_one _ hlt]
      rfl
    · rename_i hge
      exact toDigits_len_two _ (by omega) (Nat.mod_lt _ (by norm_num))
  · intro c hc
    split at hc
    · rcases List.mem_cons.mp hc with rfl | hc2
      · decide
      · exact toDigits_digits _ c hc2
    · exact toDigits_digits _ c hc

/-- Counterexample for C8 as stated: toFixed falls back to the exponential
Number toString rendering at magnitudes of 1e21 and above, so the typed
22-digit amount 10^22 is committed to the store with the value field 1e+22,
which contains no dot and no two fractional digits. -/
theorem C8_counterexample :
    toFixed2 (JsNum.num ((10 : ℚ) ^ 22)) = "1e+22" ∧
    '.' ∉ (toFixed2 (JsNum.num ((10 : ℚ) ^ 22))).data ∧
    (runMessages none
      [⟨"gastei 10000000000000000000000 no x", "T1", true, true, true, true⟩,
       ⟨"sim", "T2", true, true, true, true⟩]).gastosFile =
      some "T2;1e+22;x;Outros\n" := by
  exact ⟨by decide, by decide, by decide⟩

/-- C8 (amended): every record written by the append path and by the rewrite
path is one line built by the shared template with the four fields in the
order timestamp;value;description;category; the rewrite serializes each
record's timestamp through toISOString (normalizing it); for a finite value of
magnitude below 1e21 the rendered value is an optional minus sign, digits, a
dot, and exactly two fractional digits (so it contains no newline) - at 1e21
and above toFixed falls back to the exponential toString rendering, see the
counterexample; the file written for a record list is the newline-terminated
serialized lines in order and always ends with a newline; and a confirmed
append extends the file by exactly the one serialized line. -/
theorem C8_serialization_format :
    (∀ (iso : String) (v : JsNum) (description category : String),
      serializeFields iso v description category =
        iso ++ ";" ++ toFixed2 v ++ ";" ++ description ++ ";" ++ category) ∧
    (∀ q : ℚ, |q| < (10 : ℚ) ^ 21 →
      ∃ sgn ip fp : List Char, (toFixed2 (JsNum.num q)).data = sgn ++ ip ++ '.' :: fp ∧
        (0 ≤ q → sgn = []) ∧ (q < 0 → sgn = ['-']) ∧
        ip ≠ [] ∧ (∀ c ∈ ip, c.isDigit = true) ∧
        fp.length = 2 ∧ (∀ c ∈ fp, c.isDigit = true)) ∧
    (∀ q : ℚ, |q| < (10 : ℚ) ^ 21 → '\n' ∉ (toFixed2 (JsNum.num q)).data) ∧
    (∀ exp iso, jsDateToISO exp.timestamp = some iso →
      serializeExpense exp =
        some (serializeFields iso exp.value exp.description exp.category)) ∧
    (∀ expenses content, writeExpensesToFile expenses = some content →
      ∃ s, content = s ++ "\n") ∧
    (∀ exp line, serializeExpense exp = some line →
      writeExpensesToFile [exp] = some (line ++ "\n")) ∧
    (∀ exp line f rest, serializeExpense exp = some line →
      writeExpensesToFile (exp :: f :: rest) =
        (writeExpensesToFile (f :: rest)).map (fun c => line ++ "\n" ++ c)) ∧
    (∀ st m value description suggestedCategory,
      st.userConfirmationState =
        some (SessionType.expense_confirm value description suggestedCategory) →
      isYes (lowerStr (trimStr m.text)) = true → m.appendOk = true →
      (step st m).1.gastosFile =
        some (st.gastosFile.getD "" ++
          (serializeFields m.now value description "Outros" ++ "\n"))) := by
  refine ⟨fun iso v d c => rfl, toFixed2_shape, ?_, ?_, ?_, ?_, ?_, ?_⟩
  · intro q hq hmem
    obtain ⟨sgn, ip, fp, hdata, hpos, hneg, _, hip, _, hfp⟩ := toFixed2_shape q hq
    rw [hdata] at hmem
    have hsgn : sgn = [] ∨ sgn = ['-'] := by
      rcases le_or_lt 0 q with h0 | h0
      · exact Or.inl (hpos h0)
      · exact Or.inr (hneg h0)
    rcases List.mem_append.mp hmem with hmem | hmem
    · rcases List.mem_append.mp hmem with hmem | hmem
      · rcases hsgn with rfl | rfl
        · exact absurd hmem (List.not_mem_nil _)
        · rw [List.mem_singleton] at hmem
          exact absurd hmem (by decide)
      · exact absurd (hip _ hmem) (by decide)
    · rcases List.mem_cons.mp hmem with heq | hmem
      · exact absurd heq (by decide)
      · exact absurd (hfp _ hmem) (by decide)
  · intro exp iso hiso
    simp [serializeExpense, hiso]
  · intro expenses content h
    simp only [writeExpensesToFile] at h
    cases hm : serializeAll expenses with
    | none =>
      rw [hm] at h
      exact Option.noConfusion h
    | some ls =>
      rw [hm] at h
      exact ⟨joinSep "\n" ls, (Option.some.inj h).symm⟩
  · intro exp line h
    have h1 : serializeAll [exp] = some [line] := by
      simp only [serializeAll, h]
    simp only [writeExpensesToFile, h1, Option.map_some, Option.some.injEq]
    rfl
  · intro exp line f rest h
    cases hm : serializeAll (f :: rest) with
    | none =>
      have h1 : serializeAll (exp :: f :: rest) = none := by
        simp only [serializeAll] at hm ⊢
        rw [h, hm]
      simp only [writeExpensesToFile, h1, hm]
      rfl
    | some ls =>
      have hls : ∃ l2 ls2, ls = l2 :: ls2 := by
        rw [serializeAll] at hm
        cases hf : serializeExpense f with
        | none =>
          rw [hf] at hm
          exact Option.noConfusion hm
        | some l2 =>
          rw [hf] at hm
          cases hrm : serializeAll rest with
          | none =>
            rw [hrm] at hm
            exact Option.noConfusion hm
          | some ls2 =>
            rw [hrm] at hm
            obtain rfl := (Option.some.inj hm).symm
            exact ⟨l2, ls2, rfl⟩
      obtain ⟨l2, ls2, rfl⟩ := hls
      have h1 : serializeAll (exp :: f :: rest) = some (line :: l2 :: ls2) := by
        simp only [serializeAll] at hm ⊢
        rw [h, hm]
      simp only [writeExpensesToFile, h1, hm]
      show some (joinSep "\n" (line :: l2 :: ls2) ++ "\n") =
        some (line ++ "\n" ++ (joinSep "\n" (l2 :: ls2) ++ "\n"))
      rw [joinSep_cons₂]
      refine congrArg some ?_
      apply String.ext
      simp [String.data_append]
  · intro st m value description suggestedCategory hsess hyes happ
    simp only [step, hsess, hyes, if_true, happ]
    split <;> rfl

/-- Witness for C8 (amended): the rendered value of the concrete amount 51/2
has no sign, digit characters, a dot, and exactly two fractional digits. -/
theorem C8_serialization_format_witness :
    ∃ sgn ip fp : List Char,
      (toFixed2 (JsNum.num (51 / 2))).data = sgn ++ ip ++ '.' :: fp ∧
      ((0 : ℚ) ≤ 51 / 2 → sgn = []) ∧ ((51 / 2 : ℚ) < 0 → sgn = ['-']) ∧
      ip ≠ [] ∧ (∀ c ∈ ip, c.isDigit = true) ∧
      fp.length = 2 ∧ (∀ c ∈ fp, c.isDigit = true) :=
  C8_serialization_format.2.1 (51 / 2) (by decide)


theorem firstSeenAux_congr (l : List String) :
    ∀ seen1 seen2 : List String, (∀ x, x ∈ seen1 ↔ x ∈ seen2) →
      firstSeenAux seen1 l = firstSeenAux seen2 l := by
  induction l with
  | nil => intro seen1 seen2 _; rfl
  | cons c cs ih =>
    intro seen1 seen2 hmem
    simp only [firstSeenAux]
    by_cases hc : c ∈ seen1
    · rw [if_pos hc, if_pos ((hmem c).mp hc)]
      exact ih seen1 seen2 hmem
    · rw [if_neg hc, if_neg (fun h => hc ((hmem c).mpr h))]
      refine congrArg (c :: ·) (ih (c :: seen1) (c :: seen2) ?_)
      intro x
      simp only [List.mem_cons]
      exact or_congr Iff.rfl (hmem x)

theorem firstSeenAux_mem (l : List String) :
    ∀ seen x, x ∈ firstSeenAux seen l → x ∈ l := by
  induction l with
  | nil => intro seen x h; simp [firstSeenAux] at h
  | cons c cs ih =>
    intro seen x h
    simp only [firstSeenAux] at h
    split at h
    · exact List.mem_cons_of_mem _ (ih seen x h)
    · rcases List.mem_cons.mp h with rfl | h2
      · exact List.mem_cons_self _ _
      · exact List.mem_cons_of_mem _ (ih _ x h2)

theorem reportCats_cons (e : Expense) (es : List Expense) :
    reportCats (e :: es) =
      if catOf e = "__proto__" then reportCats es else catOf e :: reportCats es := by
  by_cases hp : catOf e = "__proto__" <;>
    simp [reportCats, List.filter_cons, hp]

theorem addCategoryTotal_keys (acc : List (String × JsNum)) (c : String) (v : JsNum) :
    (addCategoryTotal acc c v).map Prod.fst =
      if c ∈ acc.map Prod.fst then acc.map Prod.fst else acc.map Prod.fst ++ [c] := by
  induction acc with
  | nil => simp [addCategoryTotal]
  | cons p rest ih =>
    obtain ⟨k, t⟩ := p
    by_cases hk : k = c
    · subst hk
      simp [addCategoryTotal]
    · simp only [addCategoryTotal, if_neg hk, List.map_cons, List.mem_cons, ih]
      have hne : ¬(c = k) := fun h => hk h.symm
      by_cases hc : c ∈ rest.map Prod.fst <;>
        simp [hc, hne]

theorem addCategoryTotal_totalFor_other (acc : List (String × JsNum)) (c2 c : String)
    (v : JsNum) (hne : c2 ≠ c) :
    totalFor c2 (addCategoryTotal acc c v) = totalFor c2 acc := by
  have hcc2 : ¬(c = c2) := fun h => hne h.symm
  induction acc with
  | nil => simp [addCategoryTotal, totalFor, hcc2]
  | cons p rest ih =>
    obtain ⟨k, t⟩ := p
    by_cases hk : k = c
    · have hkc2 : ¬(k = c2) := fun h => hcc2 (hk ▸ h)
      simp [addCategoryTotal, if_pos hk, totalFor, hkc2]
    · simp [addCategoryTotal, if_neg hk, totalFor, ih]

theorem addCategoryTotal_allNum (c : String) (v : JsNum) (hv : ∃ qv, v = JsNum.num qv) :
    ∀ acc : List (String × JsNum), (∀ p ∈ acc, ∃ q, p.2 = JsNum.num q) →
      ∀ p ∈ addCategoryTotal acc c v, ∃ q, p.2 = JsNum.num q := by
  obtain ⟨qv, rfl⟩ := hv
  intro acc
  induction acc with
  | nil =>
    intro _ p hp
    simp only [addCategoryTotal] at hp
    rw [List.mem_singleton] at hp
    subst hp
    exact ⟨0 + qv, rfl⟩
  | cons kt rest ih =>
    obtain ⟨k, t⟩ := kt
    intro hacc p hp
    by_cases hk : k = c
    · subst hk
      simp only [addCategoryTotal, if_pos rfl] at hp
      rcases List.mem_cons.mp hp with rfl | hp2
      · obtain ⟨qt, hqt⟩ := hacc (k, t) (List.mem_cons_self _ _)
        simp only at hqt
        subst hqt
        by_cases hf : isFalsy (JsNum.num qt) = true
        · rw [hf]
          exact ⟨0 + qv, by simp [jsAdd]⟩
        · rw [Bool.not_eq_true] at hf
          rw [hf]
          exact ⟨qt + qv, by simp [jsAdd]⟩
      · exact hacc p (List.mem_cons_of_mem _ hp2)
    · simp only [addCategoryTotal, if_neg hk] at hp
      rcases List.mem_cons.mp hp with rfl | hp2
      · exact hacc (k, t) (List.mem_cons_self _ _)
      · exact ih (fun x hx => hacc x (List.mem_cons_of_mem _ hx)) p hp2

theorem addCategoryTotal_totalFor_same_num (c : String) (qv : ℚ) :
    ∀ acc : List (String × JsNum), (∀ p ∈ acc, ∃ q, p.2 = JsNum.num q) →
      totalFor c (addCategoryTotal acc c (JsNum.num qv)) =
        JsNum.num (numVal (totalFor c acc) + qv) := by
  intro acc
  induction acc with
  | nil =>
    intro _
    simp [addCategoryTotal, totalFor, numVal, jsAdd]
  | cons kt rest ih =>
    obtain ⟨k, t⟩ := kt
    intro hacc
    by_cases hk : k = c
    · subst hk
      obtain ⟨qt, hqt⟩ := hacc (k, t) (List.mem_cons_self _ _)
      simp only at hqt
      subst hqt
      by_cases hf : qt = 0
      · subst hf
        simp [addCategoryTotal, totalFor, isFalsy, jsAdd, numVal]
      · simp [addCategoryTotal, totalFor, isFalsy, hf, jsAdd, numVal]
    · have hacc2 : ∀ p ∈ rest, ∃ q, p.2 = JsNum.num q :=
        fun p hp => hacc p (List.mem_cons_of_mem _ hp)
      simp [addCategoryTotal, hk, totalFor, ih hacc2]

theorem categoryTotals_fold_keys (es : List Expense) :
    ∀ acc : List (String × JsNum),
      ((es.foldl (fun acc exp => if catOf exp = "__proto__" then acc
          else addCategoryTotal acc (catOf exp) exp.value) acc).map Prod.fst) =
        acc.map Prod.fst ++ firstSeenAux (acc.map Prod.fst) (reportCats es) := by
  induction es with
  | nil => intro acc; simp [reportCats, firstSeenAux]
  | cons e rest ih =>
    intro acc
    simp only [List.foldl_cons]
    by_cases hp : catOf e = "__proto__"
    · rw [if_pos hp, ih acc, reportCats_cons, if_pos hp]
    · rw [if_neg hp, ih (addCategoryTotal acc (catOf e) e.value), addCategoryTotal_keys,
        reportCats_cons, if_neg hp]
      simp only [firstSeenAux]
      by_cases hc : catOf e ∈ acc.map Prod.fst
      · rw [if_pos hc, if_pos hc]
      · rw [if_neg hc, if_neg hc, List.append_assoc, List.singleton_append]
        refine congrArg _ (congrArg _ (firstSeenAux_congr _ _ _ ?_))
        intro x
        simp [List.mem_append, List.mem_cons, or_comm]

theorem categoryTotals_keys_nodup_fold (es : List Expense) :
    ∀ acc : List (String × JsNum), (acc.map Prod.fst).Nodup →
      ((es.foldl (fun acc exp => if catOf exp = "__proto__" then acc
          else addCategoryTotal acc (catOf exp) exp.value) acc).map Prod.fst).Nodup := by
  induction es with
  | nil => intro acc h; exact h
  | cons e rest ih =>
    intro acc h
    simp only [List.foldl_cons]
    by_cases hp : catOf e = "__proto__"
    · rw [if_pos hp]
      exact ih acc h
    · rw [if_neg hp]
      refine ih _ ?_
      rw [addCategoryTotal_keys]
      by_cases hc : catOf e ∈ acc.map Prod.fst
      · rwa [if_pos hc]
      · rw [if_neg hc]
        refine List.Nodup.append h (List.nodup_singleton _) ?_
        intro x hx hxc
        rw [List.mem_singleton] at hxc
        subst hxc
        exact hc hx

theorem categoryTotals_fold_allNum (es : List Expense) :
    ∀ acc : List (String × JsNum), (∀ e ∈ es, ∃ q, e.value = JsNum.num q) →
      (∀ p ∈ acc, ∃ q, p.2 = JsNum.num q) →
      ∀ p ∈ es.foldl (fun acc exp => if catOf exp = "__proto__" then acc
          else addCategoryTotal acc (catOf exp) exp.value) acc,
        ∃ q, p.2 = JsNum.num q := by
  induction es with
  | nil => intro acc _ hacc; exact hacc
  | cons e rest ih =>
    intro acc hes hacc
    have hrest : ∀ x ∈ rest, ∃ q, x.value = JsNum.num q :=
      fun x hx => hes x (List.mem_cons_of_mem _ hx)
    simp only [List.foldl_cons]
    by_cases hp : catOf e = "__proto__"
    · rw [if_pos hp]
      exact ih acc hrest hacc
    · rw [if_neg hp]
      exact ih _ hrest
        (addCategoryTotal_allNum _ _ (hes e (List.mem_cons_self _ _)) acc hacc)

theorem categoryTotals_fold_totalFor (es : List Expense) :
    ∀ (acc : List (String × JsNum)) (c : String),
      (∀ e ∈ es, ∃ q, e.value = JsNum.num q) →
      (∀ p ∈ acc, ∃ q, p.2 = JsNum.num q) →
      c ≠ "__proto__" →
      numVal (totalFor c (es.foldl (fun acc exp => if catOf exp = "__proto__" then acc
          else addCategoryTotal acc (catOf exp) exp.value) acc)) =
        numVal (totalFor c acc) + sumCat es c := by
  induction es with
  | nil =>
    intro acc c _ _ _
    simp [sumCat]
  | cons e rest ih =>
    intro acc c hes hacc hc
    have hrest : ∀ x ∈ rest, ∃ q, x.value = JsNum.num q :=
      fun x hx => hes x (List.mem_cons_of_mem _ hx)
    obtain ⟨qe, hqe⟩ := hes e (List.mem_cons_self _ _)
    simp only [List.foldl_cons]
    by_cases hp : catOf e = "__proto__"
    · rw [if_pos hp, ih acc c hrest hacc hc]
      have hne : ¬ (catOf e = c) := fun h => hc (by rw [← h]; exact hp)
      have hsum : sumCat (e :: rest) c = sumCat rest c := by
        simp [sumCat, List.filter_cons, hne]
      rw [hsum]
    · rw [if_neg hp]
      by_cases hcc : catOf e = c
      · subst hcc
        rw [ih _ _ hrest (addCategoryTotal_allNum _ _ ⟨qe, hqe⟩ acc hacc) hc]
        rw [hqe, addCategoryTotal_totalFor_same_num _ _ acc hacc]
        have hsum : sumCat (e :: rest) (catOf e) = qe + sumCat rest (catOf e) := by
          simp [sumCat, List.filter_cons, hqe, numVal]
        rw [hsum]
        simp only [numVal]
        ring
      · rw [ih _ _ hrest (addCategoryTotal_allNum _ _ ⟨qe, hqe⟩ acc hacc) hc,
          addCategoryTotal_totalFor_other acc c (catOf e) e.value (fun h => hcc h.symm)]
        have hsum : sumCat (e :: rest) c = sumCat rest c := by
          simp [sumCat, List.filter_cons, hcc]
        rw [hsum]

theorem categoryTotals_keys (es : List Expense) :
    (categoryTotals es).map Prod.fst = firstSeenCats es := by
  have h := categoryTotals_fold_keys es []
  simpa [categoryTotals, firstSeenCats] using h

theorem categoryTotals_keys_nodup (es : List Expense) :
    ((categoryTotals es).map Prod.fst).Nodup := by
  have h := categoryTotals_keys_nodup_fold es [] (by simp)
  simpa [categoryTotals] using h

theorem categoryTotals_allNum (es : List Expense)
    (hfin : ∀ e ∈ es, ∃ q, e.value = JsNum.num q) :
    ∀ p ∈ categoryTotals es, ∃ q, p.2 = JsNum.num q := by
  have h := categoryTotals_fold_allNum es [] hfin (by simp)
  simpa [categoryTotals] using h

theorem categoryTotals_totalFor (es : List Expense) (c : String)
    (hfin : ∀ e ∈ es, ∃ q, e.value = JsNum.num q) (hc : c ≠ "__proto__") :
    numVal (totalFor c (categoryTotals es)) = sumCat es c := by
  have h := categoryTotals_fold_totalFor es [] c hfin (by simp) hc
  simpa [categoryTotals, totalFor, numVal] using h

theorem totalFor_of_mem (acc : List (String × JsNum)) (hnd : (acc.map Prod.fst).Nodup) :
    ∀ p ∈ acc, totalFor p.1 acc = p.2 := by
  induction acc with
  | nil => intro p hp; exact absurd hp (List.not_mem_nil p)
  | cons q rest ih =>
    intro p hp
    obtain ⟨k, t⟩ := q
    simp only [List.map_cons, List.nodup_cons] at hnd
    rcases List.mem_cons.mp hp with rfl | hp2
    · simp [totalFor]
    · have hk : ¬(k = p.1) := by
        intro hkp
        exact hnd.1 (hkp ▸ List.mem_map_of_mem Prod.fst hp2)
      simp only [totalFor, if_neg hk]
      exact ih hnd.2 p hp2

theorem orderedInsert_congr {α : Type} (r r2 : α → α → Prop)
    [DecidableRel r] [DecidableRel r2] (a : α) :
    ∀ xs : List α, (∀ b ∈ xs, r a b ↔ r2 a b) →
      List.orderedInsert r a xs = List.orderedInsert r2 a xs := by
  intro xs
  induction xs with
  | nil => intro _; rfl
  | cons x l ih =>
    intro h
    simp only [List.orderedInsert]
    by_cases hr : r a x
    · rw [if_pos hr, if_pos ((h x (List.mem_cons_self _ _)).mp hr)]
    · rw [if_neg hr, if_neg (fun h2 => hr ((h x (List.mem_cons_self _ _)).mpr h2))]
      rw [ih (fun b hb => h b (List.mem_cons_of_mem _ hb))]

theorem insertionSort_congr {α : Type} (r r2 : α → α → Prop)
    [DecidableRel r] [DecidableRel r2] :
    ∀ l : List α, (∀ a ∈ l, ∀ b ∈ l, r a b ↔ r2 a b) →
      List.insertionSort r l = List.insertionSort r2 l := by
  intro l
  induction l with
  | nil => intro _; rfl
  | cons x l ih =>
    intro h
    simp only [List.insertionSort]
    rw [ih (fun a ha b hb =>
      h a (List.mem_cons_of_mem _ ha) b (List.mem_cons_of_mem _ hb))]
    refine orderedInsert_congr r r2 x _ ?_
    intro b hb
    have hbl : b ∈ l := (List.perm_insertionSort r2 l).mem_iff.mp hb
    exact h x (List.mem_cons_self _ _) b (List.mem_cons_of_mem _ hbl)

theorem jsLe_refl (x : JsNum) : jsLe x x := by
  cases x <;> simp [jsLe]

theorem rankGE_iff_num (a b : String × JsNum) (ha : ∃ x, a.2 = JsNum.num x)
    (hb : ∃ y, b.2 = JsNum.num y) : rankGE a b ↔ rankGE' a b := by
  obtain ⟨x, hx⟩ := ha
  obtain ⟨y, hy⟩ := hb
  rw [rankGE, rankGE', hx, hy]
  simp [jsSub, jsPos, jsLe, sub_pos, not_lt]

theorem objectEntries_perm (acc : List (String × JsNum)) :
    (objectEntries acc).Perm acc := by
  refine ((List.perm_insertionSort keyAsc _).append_right _).trans ?_
  exact List.filter_append_perm _ acc

end

end Kashy
